import Mathlib

/-!
A verification development for the public filesystem of wnfs-go
(`src/public/public.go`, `src/public/merge.go`).

The embedding models the content-addressed block store as an idealized
collision-free hash: a block is a value of the inductive `Blk`, and its
content address (`cid.Cid` in Go) is an injective encoding of the block
into `Nat`.  The Go zero value `cid.Undef` is modelled by `0`; every
defined cid produced by `blockId` is positive.

Parts of the repository that the claims depend on but that are not under
`src/` (the `base` package: `base.Links`, `base.Path`, `base.PutResult`,
`base.MergeResult` and their conversions) are modelled from the spec and
are marked `Modelled from the spec:` in their doc comments.
-/

namespace Wnfs

/-- Content address, Go `cid.Cid`.  `0` models the undefined cid
`cid.Undef`; `blockId` never returns `0`. -/
abbrev Cid := Nat

/-- Node type tags, spec section 6: `Dir = 1`, `File = 2`, `LDFile = 3`
(Go `base.NTDir`, `base.NTFile`, `base.NTLDFile`). -/
def NTDir : Nat := 1

/-- Node type tag for opaque files (Go `base.NTFile`). -/
def NTFile : Nat := 2

/-- Node type tag for linked-data files (Go `base.NTLDFile`). -/
def NTLDFile : Nat := 3

/-- Per-node metadata, Go `public.Info` (public.go lines 119-126). -/
structure Info where
  wnfs : String
  type : Nat
  mode : Nat
  ctime : Int
  mtime : Int
  size : Int
deriving DecidableEq, Repr

/-- Per-node manifest, Go `public.Header` (public.go lines 24-31).  The
`info` field is a Go pointer, hence `Option`. -/
structure Header where
  info : Option Info
  previous : Option Cid
  merge : Option Cid
  metadata : Option Cid
  skeleton : Option Cid
  userland : Option Cid
deriving DecidableEq, Repr

/-- Modelled from the spec: `base.Link` (base package not under src/).
Spec section 3: a link is the triple `{name, target, is_file}`. -/
structure Link where
  name : String
  cid : Cid
  isFile : Bool
deriving DecidableEq, Repr

/-- Modelled from the spec: a skeleton entry (`public.SkeletonInfo`, whose
file is not under src/).  Spec section 3: per-child record
`{target, userland, metadata, sub_skeleton, is_file}`. -/
structure SkeletonInfo where
  cid : Cid
  userland : Cid
  metadata : Option Cid
  subSkeleton : Option Cid
  isFile : Bool
deriving DecidableEq, Repr

/-- The shapes of persisted blocks (spec section 6): header blocks,
link-set blocks (`Links.EncodeBlock`), skeleton files
(`Skeleton.CBORFile`), opaque file contents (`Store.PutFile`) and
linked-data blocks (`LDFile.Put`, content abstracted to a `Nat`). -/
inductive Blk where
  | header (h : Header)
  | links (ls : List Link)
  | skeletonFile (sk : List (String × SkeletonInfo))
  | fileBytes (bs : List Nat)
  | ldBlock (v : Nat)
deriving DecidableEq, Repr

/-- Encode a list by right-folding the Cantor pairing function. -/
def encList (f : A → Nat) : List A → Nat
  | [] => 0
  | x :: xs => Nat.pair (f x) (encList f xs) + 1

/-- Encode a string through its character codes. -/
def encStr (s : String) : Nat := encList Char.toNat s.data

/-- Encode an option; `none` is `0`. -/
def encOpt (f : A → Nat) : Option A → Nat
  | none => 0
  | some x => f x + 1

/-- Encode an integer by interleaving positives and negatives. -/
def encInt : Int → Nat
  | Int.ofNat n => 2 * n
  | Int.negSucc n => 2 * n + 1

/-- Encode a boolean. -/
def encBool : Bool → Nat
  | false => 0
  | true => 1

/-- Encode an `Info`. -/
def encInfo (i : Info) : Nat :=
  Nat.pair (encStr i.wnfs) (Nat.pair i.type (Nat.pair i.mode
    (Nat.pair (encInt i.ctime) (Nat.pair (encInt i.mtime) (encInt i.size)))))

/-- Encode a `Header`. -/
def encHeader (h : Header) : Nat :=
  Nat.pair (encOpt encInfo h.info) (Nat.pair (encOpt id h.previous)
    (Nat.pair (encOpt id h.merge) (Nat.pair (encOpt id h.metadata)
      (Nat.pair (encOpt id h.skeleton) (encOpt id h.userland)))))

/-- Encode a `Link`. -/
def encLink (l : Link) : Nat :=
  Nat.pair (encStr l.name) (Nat.pair l.cid (encBool l.isFile))

/-- Encode a `SkeletonInfo`. -/
def encSkelInfo (si : SkeletonInfo) : Nat :=
  Nat.pair si.cid (Nat.pair si.userland (Nat.pair (encOpt id si.metadata)
    (Nat.pair (encOpt id si.subSkeleton) (encBool si.isFile))))

/-- Encode a named skeleton entry. -/
def encSkelEntry (e : String × SkeletonInfo) : Nat :=
  Nat.pair (encStr e.1) (encSkelInfo e.2)

/-- Encode a block, tagged by constructor. -/
def encBlk : Blk → Nat
  | .header h => 5 * encHeader h
  | .links ls => 5 * encList encLink ls + 1
  | .skeletonFile sk => 5 * encList encSkelEntry sk + 2
  | .fileBytes bs => 5 * encList id bs + 3
  | .ldBlock v => 5 * v + 4

/-- The content address of a block: an idealized collision-free hash.
`+ 1` keeps every defined cid distinct from `cid.Undef = 0`. -/
def blockId (b : Blk) : Cid := encBlk b + 1

theorem encList_inj {f : A → Nat} (hf : Function.Injective f) :
    Function.Injective (encList f) := by
  intro xs ys h
  induction xs generalizing ys with
  | nil =>
    cases ys with
    | nil => rfl
    | cons y ys => simp [encList] at h
  | cons x xs ih =>
    cases ys with
    | nil => simp [encList] at h
    | cons y ys =>
      simp only [encList, Nat.add_right_cancel_iff] at h
      obtain ⟨h1, h2⟩ := Nat.pair_eq_pair.mp h
      rw [hf h1, ih h2]

theorem char_toNat_inj : Function.Injective Char.toNat := by
  intro c d h
  apply Char.eq_of_val_eq
  apply UInt32.ext
  simpa [Char.toNat] using h

theorem encStr_inj : Function.Injective encStr := by
  intro s t h
  have hd : s.data = t.data := encList_inj char_toNat_inj h
  cases s; cases t; simp_all

theorem encOpt_inj {f : A → Nat} (hf : Function.Injective f) :
    Function.Injective (encOpt f) := by
  intro a b h
  cases a <;> cases b <;> simp only [encOpt] at h
  · rfl
  · exact absurd h.symm (Nat.succ_ne_zero _)
  · exact absurd h (Nat.succ_ne_zero _)
  · rw [hf (Nat.succ_injective h)]

theorem encInt_inj : Function.Injective encInt := by
  intro a b h
  cases a <;> cases b <;> simp only [encInt] at h
  · exact congrArg Int.ofNat (by omega)
  · omega
  · omega
  · exact congrArg Int.negSucc (by omega)

theorem encBool_inj : Function.Injective encBool := by
  intro a b h
  cases a <;> cases b <;> simp [encBool] at h <;> rfl

theorem encInfo_inj : Function.Injective encInfo := by
  intro a b h
  obtain ⟨w1, t1, m1, c1, mt1, s1⟩ := a
  obtain ⟨w2, t2, m2, c2, mt2, s2⟩ := b
  simp only [encInfo] at h
  obtain ⟨e1, h⟩ := Nat.pair_eq_pair.mp h
  obtain ⟨e2, h⟩ := Nat.pair_eq_pair.mp h
  obtain ⟨e3, h⟩ := Nat.pair_eq_pair.mp h
  obtain ⟨e4, h⟩ := Nat.pair_eq_pair.mp h
  obtain ⟨e5, e6⟩ := Nat.pair_eq_pair.mp h
  simp only [Info.mk.injEq]
  exact ⟨encStr_inj e1, e2, e3, encInt_inj e4, encInt_inj e5, encInt_inj e6⟩

theorem encHeader_inj : Function.Injective encHeader := by
  intro a b h
  obtain ⟨i1, p1, g1, d1, s1, u1⟩ := a
  obtain ⟨i2, p2, g2, d2, s2, u2⟩ := b
  simp only [encHeader] at h
  obtain ⟨e1, h⟩ := Nat.pair_eq_pair.mp h
  obtain ⟨e2, h⟩ := Nat.pair_eq_pair.mp h
  obtain ⟨e3, h⟩ := Nat.pair_eq_pair.mp h
  obtain ⟨e4, h⟩ := Nat.pair_eq_pair.mp h
  obtain ⟨e5, e6⟩ := Nat.pair_eq_pair.mp h
  simp only [Header.mk.injEq]
  exact ⟨encOpt_inj encInfo_inj e1, encOpt_inj Function.injective_id e2,
    encOpt_inj Function.injective_id e3, encOpt_inj Function.injective_id e4,
    encOpt_inj Function.injective_id e5, encOpt_inj Function.injective_id e6⟩

theorem encLink_inj : Function.Injective encLink := by
  intro a b h
  obtain ⟨n1, c1, f1⟩ := a
  obtain ⟨n2, c2, f2⟩ := b
  simp only [encLink] at h
  obtain ⟨e1, h⟩ := Nat.pair_eq_pair.mp h
  obtain ⟨e2, e3⟩ := Nat.pair_eq_pair.mp h
  simp only [Link.mk.injEq]
  exact ⟨encStr_inj e1, e2, encBool_inj e3⟩

theorem encSkelInfo_inj : Function.Injective encSkelInfo := by
  intro a b h
  obtain ⟨c1, u1, m1, s1, f1⟩ := a
  obtain ⟨c2, u2, m2, s2, f2⟩ := b
  simp only [encSkelInfo] at h
  obtain ⟨e1, h⟩ := Nat.pair_eq_pair.mp h
  obtain ⟨e2, h⟩ := Nat.pair_eq_pair.mp h
  obtain ⟨e3, h⟩ := Nat.pair_eq_pair.mp h
  obtain ⟨e4, e5⟩ := Nat.pair_eq_pair.mp h
  simp only [SkeletonInfo.mk.injEq]
  exact ⟨e1, e2, encOpt_inj Function.injective_id e3,
    encOpt_inj Function.injective_id e4, encBool_inj e5⟩

theorem encSkelEntry_inj : Function.Injective encSkelEntry := by
  intro a b h
  obtain ⟨n1, s1⟩ := a
  obtain ⟨n2, s2⟩ := b
  simp only [encSkelEntry] at h
  obtain ⟨e1, e2⟩ := Nat.pair_eq_pair.mp h
  simp only [Prod.mk.injEq]
  exact ⟨encStr_inj e1, encSkelInfo_inj e2⟩

theorem encBlk_inj : Function.Injective encBlk := by
  intro x y h
  cases x <;> cases y <;> simp only [encBlk] at h
  case header.header a b => exact congrArg Blk.header (encHeader_inj (by omega))
  case links.links a b =>
    exact congrArg Blk.links (encList_inj encLink_inj (by omega))
  case skeletonFile.skeletonFile a b =>
    exact congrArg Blk.skeletonFile (encList_inj encSkelEntry_inj (by omega))
  case fileBytes.fileBytes a b =>
    exact congrArg Blk.fileBytes (encList_inj Function.injective_id (by omega))
  case ldBlock.ldBlock a b => exact congrArg Blk.ldBlock (by omega)
  all_goals exact absurd h (by omega)

theorem blockId_inj : Function.Injective blockId := by
  intro x y h
  exact encBlk_inj (Nat.succ_injective h)

theorem blockId_pos (b : Blk) : 0 < blockId b := Nat.succ_pos _

/-- A block store: the list of all blocks ever written, content addressed
through `blockId` (spec section 4.4; `put_block` is idempotent for
byte-equal inputs, so a duplicate entry is harmless). -/
abbrev Store := List Blk

/-- Write a block, returning the store and the block's cid. -/
def putBlk (st : Store) (b : Blk) : Store × Cid := (b :: st, blockId b)

/-- Read the block stored at a cid. -/
def getBlk (st : Store) (c : Cid) : Option Blk :=
  st.find? (fun b => blockId b == c)

theorem getBlk_id {st : Store} {c : Cid} {b : Blk} (h : getBlk st c = some b) :
    blockId b = c := by
  have := List.find?_some h
  simpa using this

/-- Modelled from the spec: `base.Links.Add` (base package not under src/).
Spec section 4.1: `add(link)` overwrites any existing link with the same
name. -/
def linksAdd (ls : List Link) (l : Link) : List Link :=
  (ls.filter (fun x => !(x.name == l.name))) ++ [l]

/-- Modelled from the spec: `base.Links.Get` returns the link with the
given name, or nothing. -/
def linksGet (ls : List Link) (n : String) : Option Link :=
  ls.find? (fun x => x.name == n)

/-- Modelled from the spec: `base.Links.Remove` deletes the link with the
given name. -/
def linksRemove (ls : List Link) (n : String) : List Link :=
  ls.filter (fun x => !(x.name == n))

/-- Insert a link into a name-sorted list. -/
def insertSortedLink (l : Link) : List Link → List Link
  | [] => [l]
  | x :: xs => if l.name < x.name then l :: x :: xs else x :: insertSortedLink l xs

/-- Modelled from the spec: serialization of a link set is ordered by name
ascending (spec sections 4.1 and 6). -/
def sortLinks : List Link → List Link
  | [] => []
  | x :: xs => insertSortedLink x (sortLinks xs)

/-- Look up a name in a skeleton. -/
def skelGet (sk : List (String × SkeletonInfo)) (n : String) : Option SkeletonInfo :=
  (sk.find? (fun e => e.1 == n)).map (fun e => e.2)

/-- Set a name in a skeleton (Go map assignment `t.skeleton[name] = v`). -/
def skelInsert (sk : List (String × SkeletonInfo)) (n : String)
    (si : SkeletonInfo) : List (String × SkeletonInfo) :=
  (sk.filter (fun e => !(e.1 == n))) ++ [(n, si)]

/-- Delete a name from a skeleton (Go `delete(t.skeleton, name)`). -/
def skelRemove (sk : List (String × SkeletonInfo)) (n : String) :
    List (String × SkeletonInfo) :=
  sk.filter (fun e => !(e.1 == n))

/-- Insert a skeleton entry into a name-sorted list. -/
def insertSortedSkel (e : String × SkeletonInfo) :
    List (String × SkeletonInfo) → List (String × SkeletonInfo)
  | [] => [e]
  | x :: xs => if e.1 < x.1 then e :: x :: xs else x :: insertSortedSkel e xs

/-- Canonical (deterministic, name-sorted) serialization order of a
skeleton map, matching the deterministic map encoding of the codec. -/
def sortSkel : List (String × SkeletonInfo) → List (String × SkeletonInfo)
  | [] => []
  | x :: xs => insertSortedSkel x (sortSkel xs)

/-- Modelled from the spec: `public.PutResult` (its file is not under
src/).  Spec section 4.5: operations return
`PutResult{cid, size, userland_ca, skeleton_entry, node_type}`.  Fields a
`PutResult` literal in the source leaves unset carry the Go zero values
(`type = 0`, empty skeleton). -/
structure PutResult where
  cid : Cid
  size : Int
  userland : Cid
  skeleton : List (String × SkeletonInfo)
  type : Nat
deriving DecidableEq, Repr

/-- Modelled from the spec: `PutResult.ToLink` builds the userland link
for the child from the put result (link triple of spec section 3). -/
def putResultToLink (r : PutResult) (name : String) : Link :=
  { name := name, cid := r.cid, isFile := decide (r.type = NTFile) }

/-- Modelled from the spec: `PutResult.ToSkeletonInfo` builds the skeleton
entry for the child from the put result; per spec section 8 its target cid
and `is_file` agree with the userland link. -/
def putResultToSkeletonInfo (r : PutResult) : SkeletonInfo :=
  { cid := r.cid, userland := r.userland, metadata := none,
    subSkeleton := none, isFile := decide (r.type = NTFile) }

/-- In-memory directory node, Go `public.Tree` (public.go lines 174-183).
The in-memory metadata LDFile content is abstracted to a `Nat`. -/
structure TreeM where
  name : String
  cid : Cid
  h : Header
  metadata : Option Nat
  skeleton : List (String × SkeletonInfo)
  userland : List Link
deriving DecidableEq, Repr

/-- Modelled from the spec: `base.LatestVersion` (base package not under
src/); the exact version string is immaterial, only its presence is used. -/
def latestVersion : String := "v"

/-- Modelled from the spec: `base.ModeDefault` (base package not under
src/); 0644 octal. -/
def modeDefault : Nat := 420

/-- Go `public.NewInfo` (public.go lines 128-138); the timestamp comes
from the injectable clock, passed here as `now`. -/
def NewInfo (now : Int) (t : Nat) : Info :=
  { wnfs := latestVersion, type := t, mode := modeDefault,
    ctime := now, mtime := now, size := 0 }

/-- Go `public.NewEmptyTree` (public.go lines 194-205). -/
def NewEmptyTree (now : Int) (name : String) : TreeM :=
  { name := name, cid := 0,
    h := { info := some (NewInfo now NTDir), previous := none, merge := none,
           metadata := none, skeleton := none, userland := none },
    metadata := none, skeleton := [], userland := [] }

/-- Go `public.Tree.Put` (public.go lines 468-523): encode and write the
userland link block, put the metadata LDFile when present, write the
skeleton file, rotate `previous` when the current cid is defined, then
encode and write the header and adopt its cid. -/
def treePut (st : Store) (t : TreeM) : Store × TreeM × PutResult :=
  let p1 := putBlk st (Blk.links (sortLinks t.userland))
  let p2 : Store × Option Cid :=
    match t.metadata with
    | some v =>
      let p := putBlk p1.1 (Blk.ldBlock v)
      (p.1, some p.2)
    | none => (p1.1, t.h.metadata)
  let p3 := putBlk p2.1 (Blk.skeletonFile (sortSkel t.skeleton))
  let prev := if t.cid = 0 then t.h.previous else some t.cid
  let h : Header :=
    { info := t.h.info, previous := prev, merge := t.h.merge,
      metadata := p2.2, skeleton := some p3.2, userland := some p1.2 }
  let p4 := putBlk p3.1 (Blk.header h)
  (p4.1, { t with h := h, cid := p4.2 },
    { cid := p4.2, size := ((t.h.info.map Info.size).getD 0),
      userland := p1.2, skeleton := t.skeleton, type := 0 })

/-- Go `public.Tree.updateUserlandLink` (public.go lines 670-676): install
the child's link and skeleton entry, bump `info.Mtime`, clear `merge`. -/
def updateUserlandLink (now : Int) (t : TreeM) (name : String)
    (res : PutResult) : TreeM :=
  { t with
    userland := linksAdd t.userland (putResultToLink res name),
    skeleton := skelInsert t.skeleton name (putResultToSkeletonInfo res),
    h := { t.h with
           info := t.h.info.map (fun i => { i with mtime := now }),
           merge := none } }

/-- Go `public.Tree.removeUserlandLink` (public.go lines 678-683): drop
the name from userland and skeleton, bump `info.Mtime`, clear `merge`. -/
def removeUserlandLink (now : Int) (t : TreeM) (name : String) : TreeM :=
  { t with
    userland := linksRemove t.userland name,
    skeleton := skelRemove t.skeleton name,
    h := { t.h with
           info := t.h.info.map (fun i => { i with mtime := now }),
           merge := none } }

/-- Go `public.loadHeader` plus `decodeHeaderBlock` (public.go lines
33-80): read the block at a cid and decode it as a header; a block whose
`info` map is missing is rejected. -/
def loadHeaderM (st : Store) (c : Cid) : Option Header :=
  match getBlk st c with
  | some (Blk.header h) => if h.info.isSome then some h else none
  | _ => none

/-- Go `public.treeFromHeader` (public.go lines 218-252): require the
directory node type, load the skeleton file and the userland link block;
the metadata LDFile is not loaded (the source has that load commented
out). -/
def treeFromHeaderM (st : Store) (h : Header) (name : String) (c : Cid) :
    Option TreeM :=
  match h.info with
  | none => none
  | some i =>
    if i.type = NTDir then
      match h.skeleton with
      | none => none
      | some skc =>
        match getBlk st skc with
        | some (Blk.skeletonFile sk) =>
          match h.userland with
          | none => none
          | some ulc =>
            match getBlk st ulc with
            | some (Blk.links ls) =>
              some { name := name, cid := c, h := h, metadata := none,
                     skeleton := sk, userland := ls }
            | _ => none
        | _ => none
    else none

/-- Go `public.LoadTree` (public.go lines 207-216). -/
def loadTreeM (st : Store) (name : String) (c : Cid) : Option TreeM :=
  match loadHeaderM st c with
  | none => none
  | some h => treeFromHeaderM st h name c

/-- A history log entry, Go `base.HistoryEntry` as populated by
`loadHistoryEntry` and `AsHistoryEntry`. -/
structure HistoryEntry where
  cid : Cid
  previous : Option Cid
  type : Nat
  mtime : Int
  size : Int
deriving DecidableEq, Repr

/-- Go `public.Tree.AsHistoryEntry` (public.go lines 328-336). -/
def treeAsHistoryEntry (t : TreeM) : HistoryEntry :=
  { cid := t.cid, previous := t.h.previous,
    type := ((t.h.info.map Info.type).getD 0),
    mtime := ((t.h.info.map Info.mtime).getD 0),
    size := ((t.h.info.map Info.size).getD 0) }

/-- Go `public.loadHistoryEntry` (public.go lines 556-569). -/
def loadHistoryEntryM (st : Store) (c : Cid) : Option HistoryEntry :=
  match loadHeaderM st c with
  | none => none
  | some h =>
    some { cid := c, previous := h.previous,
           type := ((h.info.map Info.type).getD 0),
           mtime := ((h.info.map Info.mtime).getD 0),
           size := ((h.info.map Info.size).getD 0) }

/-- The loop of Go `public.history` (public.go lines 529-554): follow
`previous`, appending the loaded entry, and stop once the log length
equals `max` (the test runs after the append).  `fuel` models the fact
that the Go loop has no bound of its own. -/
def historyLoop (st : Store) (max : Int) :
    Option Cid → List HistoryEntry → Nat → Option (List HistoryEntry)
  | none, log, _ => some log
  | some _, _, 0 => none
  | some p, log, fuel + 1 =>
    match loadHistoryEntryM st p with
    | none => none
    | some ent =>
      let log := log ++ [ent]
      if (log.length : Int) = max then some log
      else historyLoop st max ent.previous log fuel

/-- Go `public.history` (public.go lines 529-554): the log starts with the
node's own entry, then walks `previous`. -/
def historyM (st : Store) (self : HistoryEntry) (max : Int) (fuel : Nat) :
    Option (List HistoryEntry) :=
  historyLoop st max self.previous [self] fuel

/-- In-memory opaque file node, Go `public.File` (public.go lines
685-693).  `content = none` models a nil (not yet loaded) reader. -/
structure FileM where
  name : String
  cid : Cid
  h : Header
  metadata : Option Nat
  content : Option (List Nat)
deriving DecidableEq, Repr

/-- Go `public.NewFileMetadata` (public.go lines 718-734) with no
metadata side channel. -/
def NewFileM (now : Int) (name : String) (bs : List Nat) : FileM :=
  { name := name, cid := 0,
    h := { info := some (NewInfo now NTFile), previous := none,
           merge := none, metadata := none, skeleton := none,
           userland := none },
    metadata := none, content := some bs }

/-- Go `public.File.Put` (public.go lines 837-879): write the content
through the store's file-writer — which reports `{cid, size}`, of which
the source uses only the cid — put metadata when present, rotate
`previous`, encode and write the header.  `Info.Size` is never written. -/
def filePut (st : Store) (f : FileM) : Option (Store × FileM × PutResult) :=
  match f.content with
  | none => none
  | some bs =>
    let p1 := putBlk st (Blk.fileBytes bs)
    let p2 : Store × Option Cid :=
      match f.metadata with
      | some v =>
        let p := putBlk p1.1 (Blk.ldBlock v)
        (p.1, some p.2)
      | none => (p1.1, f.h.metadata)
    let prev := if f.cid = 0 then f.h.previous else some f.cid
    let h : Header :=
      { info := f.h.info, previous := prev, merge := f.h.merge,
        metadata := p2.2, skeleton := f.h.skeleton, userland := some p1.2 }
    let p3 := putBlk p2.1 (Blk.header h)
    some (p3.1, { f with h := h, cid := p3.2 },
      { cid := p3.2, size := ((f.h.info.map Info.size).getD 0),
        userland := p1.2, skeleton := [],
        type := ((f.h.info.map Info.type).getD 0) })

/-- The byte length the store's file-writer reports for a content write
(spec section 4.4: `put_file(byte_reader) -> {ca, size}`). -/
def putFileSize (bs : List Nat) : Int := (bs.length : Int)

/-- Errors distinguished by the claims (spec section 7). -/
inductive ErrM where
  | notFound
  | invalidPath
  | loadFailed
deriving DecidableEq, Repr

/-- Go `public.Tree.Rm` (public.go lines 437-466): an empty head is an
invalid path; at the leaf the name is removed without an existence check
and the tree is re-put; at an interior step a missing name is
`base.ErrNotFound`. -/
def rmM (now : Int) (st : Store) (t : TreeM) :
    List String → Except ErrM (Store × TreeM × PutResult)
  | [] => .error .invalidPath
  | head :: tail =>
    if head = "" then .error .invalidPath
    else
      match tail with
      | [] => .ok (treePut st (removeUserlandLink now t head))
      | _ :: _ =>
        match linksGet t.userland head with
        | none => .error .notFound
        | some link =>
          match loadTreeM st head link.cid with
          | none => .error .loadFailed
          | some child =>
            match rmM now st child tail with
            | .error e => .error e
            | .ok (st1, _, res) =>
              .ok (treePut st1 (updateUserlandLink now t head res))

/-- Go `public.Tree.getOrCreateDirectChildTree` (public.go lines
571-578). -/
def getOrCreateDirectChildTree (now : Int) (st : Store) (t : TreeM)
    (name : String) : Option TreeM :=
  match linksGet t.userland name with
  | none => some (NewEmptyTree now name)
  | some link => loadTreeM st name link.cid

/-- Go `public.Tree.Mkdir` (public.go lines 338-363).  Note the source:
in the recursive branch it calls `t.Mkdir(tail)` on the parent itself —
not `childDir.Mkdir(tail)` — and the `childDir` it just obtained is left
unused; the result of that self-recursion is then linked under `head`. -/
def mkdirM (now : Int) (st : Store) (t : TreeM) :
    List String → Option (Store × TreeM × PutResult)
  | [] => none
  | head :: tail =>
    match getOrCreateDirectChildTree now st t head with
    | none => none
    | some childDir =>
      match tail with
      | [] =>
        let p := treePut st childDir
        some (treePut p.1 (updateUserlandLink now t head p.2.2))
      | _ :: _ =>
        match mkdirM now st t tail with
        | none => none
        | some (st1, t1, res) =>
          some (treePut st1 (updateUserlandLink now t1 head res))

/-- A value of the encoded header map (the cbor object written by
`Header.encodeBlock`): a typed link, an explicit null, or the nested info
map. -/
inductive EncVal where
  | null
  | link (c : Cid)
  | infoMap (i : Info)
deriving DecidableEq, Repr

/-- How a Go `*cid.Cid` field appears in the encoded map: a nil pointer
encodes as cbor null, a set pointer as a link. -/
def encCidPtr : Option Cid → EncVal
  | none => .null
  | some c => .link c

/-- Go `public.Header.encodeBlock` (public.go lines 82-95): the map
literal always carries the five link keys (nil pointers included, which
encode as null); the `info` key is added only when `h.Info` is non-nil. -/
def encodeBlockMap (h : Header) : List (String × EncVal) :=
  [("metadata", encCidPtr h.metadata), ("previous", encCidPtr h.previous),
   ("merge", encCidPtr h.merge), ("skeleton", encCidPtr h.skeleton),
   ("userland", encCidPtr h.userland)] ++
  (match h.info with
   | some i => [("info", EncVal.infoMap i)]
   | none => [])

/-- Key lookup in an encoded map. -/
def mapLookup (m : List (String × EncVal)) (k : String) : Option EncVal :=
  (m.find? (fun e => e.1 == k)).map (fun e => e.2)

/-- Go `public.Tree.ModTime` (public.go line 258): returns
`time.Unix(t.h.Info.Ctime, 0)`, modelled by its seconds value. -/
def treeModTime (t : TreeM) : Int := ((t.h.info.map Info.ctime).getD 0)

/-- Go `public.File.ModTime` (public.go line 773): returns
`time.Unix(f.h.Info.Mtime, 0)`, modelled by its seconds value. -/
def fileModTime (f : FileM) : Int := ((f.h.info.map Info.mtime).getD 0)

/-- A `base.Node` as the merge engine sees it: a tree, a file, or a
linked-data file (public.go `loadNode` dispatch). -/
inductive NodeM where
  | tree (t : TreeM)
  | file (f : FileM)
  | ld (name : String) (cid : Cid) (previous : Option Cid)
deriving DecidableEq, Repr

/-- The node's current cid (`Node.Cid()`). -/
def nodeCid : NodeM → Cid
  | .tree t => t.cid
  | .file f => f.cid
  | .ld _ c _ => c

/-- The node's `previous` backpointer as reported by `AsHistoryEntry`. -/
def nodePrev : NodeM → Option Cid
  | .tree t => t.h.previous
  | .file f => f.h.previous
  | .ld _ _ p => p

/-- Whether the node stats as a non-directory (`!Stat().IsDir()`). -/
def nodeIsFile : NodeM → Bool
  | .tree _ => false
  | .file _ => true
  | .ld _ _ _ => true

/-- The node's `Size` as reported by `AsHistoryEntry`. -/
def nodeHistSize : NodeM → Int
  | .tree t => ((t.h.info.map Info.size).getD 0)
  | .file f => ((f.h.info.map Info.size).getD 0)
  | .ld _ _ _ => 0

/-- Go `public.fileFromHeader` (public.go lines 745-768): load metadata
when the header links it, require the `userland` link; content stays
unloaded. -/
def fileFromHeaderM (st : Store) (h : Header) (name : String) (c : Cid) :
    Option FileM :=
  let md : Option (Option Nat) :=
    match h.metadata with
    | none => some none
    | some mc =>
      match getBlk st mc with
      | some (Blk.ldBlock v) => some (some v)
      | _ => none
  match md with
  | none => none
  | some mdv =>
    match h.userland with
    | none => none
    | some _ =>
      some { name := name, cid := c, h := h, metadata := mdv, content := none }

/-- Go `public.LoadFile` (public.go lines 736-743). -/
def loadFileM (st : Store) (name : String) (c : Cid) : Option FileM :=
  match loadHeaderM st c with
  | none => none
  | some h => fileFromHeaderM st h name c

/-- Go `public.loadNode` (public.go lines 892-917): read the header at
the cid and dispatch on `info.Type`.  A loaded linked-data file carries no
`previous` pointer (`decodeLDFileBlock` never populates it). -/
def loadNodeM (st : Store) (name : String) (c : Cid) : Option NodeM :=
  match loadHeaderM st c with
  | none => none
  | some h =>
    match h.info with
    | none => none
    | some i =>
      if i.type = NTFile then (fileFromHeaderM st h name c).map NodeM.file
      else if i.type = NTLDFile then some (NodeM.ld name c none)
      else if i.type = NTDir then (treeFromHeaderM st h name c).map NodeM.tree
      else none

/-- Go `public.loadNodeFromSkeletonInfo` (public.go lines 919-924). -/
def loadNodeFromSkeletonInfoM (st : Store) (name : String)
    (si : SkeletonInfo) : Option NodeM :=
  if si.isFile then (loadFileM st name si.cid).map NodeM.file
  else (loadTreeM st name si.cid).map NodeM.tree

/-- The sequence of cids the merge loop visits when walking a node's
`previous` chain through `loadNode` (merge.go lines 96-124): the head cid
first, then each loaded predecessor.  The name passed to `loadNode` along
the walk does not influence the cids, so a fixed name is used.  `fuel`
models the unbounded Go loop. -/
def chainFrom (st : Store) : Nat → Cid → Option Cid → Option (List Cid)
  | _, c, none => some [c]
  | 0, _, some _ => none
  | fuel + 1, c, some p =>
    match loadNodeM st ("") p with
    | none => none
    | some n => (chainFrom st fuel p (nodePrev n)).map (fun l => c :: l)

/-- The history chain of an in-memory node, starting from its
`AsHistoryEntry`. -/
def nodeChain (st : Store) (fuel : Nat) (n : NodeM) : Option (List Cid) :=
  chainFrom st fuel (nodeCid n) (nodePrev n)

/-- The inner loop of the ancestry search (merge.go lines 55-109): scan
one full chain for a cid, returning the generation of the first hit. -/
def scanIdx (c : Cid) : List Cid → Option Nat
  | [] => none
  | x :: xs => if x = c then some 0 else (scanIdx c xs).map (fun j => j + 1)

/-- The nested ancestry search (merge.go lines 51-124): for each
generation along `a`'s chain, scan `b`'s full chain; the first hit gives
the pair of generations. -/
def searchChains : List Cid → List Cid → Option (Nat × Nat)
  | [], _ => none
  | x :: xs, B =>
    match scanIdx x B with
    | some j => some (0, j)
    | none => (searchChains xs B).map (fun p => (p.1 + 1, p.2))

/-- The four merge classifications (Go `base.MTInSync` etc.). -/
inductive MT where
  | inSync
  | fastForward
  | localAhead
  | mergeCommit
deriving DecidableEq, Repr

/-- Go `base.MergeResult`.  Fields the merge leaves unset carry Go zero
values (the source has the `Userland`/`Metadata` assignments commented
out). -/
structure MergeResult where
  type : MT
  cid : Cid
  userland : Cid
  metadata : Option Cid
  size : Int
  isFile : Bool
deriving DecidableEq, Repr

/-- Go `public.mergeResultToSkeletonInfo` (public.go lines 1155-1163). -/
def mergeResultToSkeletonInfo (mr : MergeResult) : SkeletonInfo :=
  { cid := mr.cid, userland := mr.userland, metadata := mr.metadata,
    subSkeleton := none, isFile := mr.isFile }

/-- Modelled from the spec: `base.MergeResult.ToLink` (base package not
under src/), the link triple for the merged child. -/
def mergeResultToLink (mr : MergeResult) (name : String) : Link :=
  { name := name, cid := mr.cid, isFile := mr.isFile }

/-- Go `public.mergeNode` (merge.go lines 240-307): build a new
winner-shaped header whose `previous` is the winner's head and whose
`merge` is the loser's head, write it, and return its cid.  For a file the
winner's content must be readable (`ensureContent`); a linked-data node is
`unknown type merging node`.  (For a tree the source additionally re-puts
the original tree, whose result is discarded.) -/
def mergeNodeF (st : Store) (a b : NodeM) : Option (Store × Cid) :=
  match a with
  | .tree ta =>
    let h : Header :=
      { info := ta.h.info, previous := some ta.cid, merge := some (nodeCid b),
        metadata := ta.h.metadata, skeleton := ta.h.skeleton,
        userland := ta.h.userland }
    let p := putBlk st (Blk.header h)
    let q := treePut p.1 ta
    some (q.1, p.2)
  | .file fa =>
    let h : Header :=
      { info := fa.h.info, previous := some fa.cid, merge := some (nodeCid b),
        metadata := fa.h.metadata, skeleton := fa.h.skeleton,
        userland := fa.h.userland }
    let p := putBlk st (Blk.header h)
    match fa.h.userland with
    | some uc =>
      match getBlk p.1 uc with
      | some (Blk.fileBytes _) => some (p.1, p.2)
      | _ => none
    | none => none
  | .ld _ _ _ => none

/-- The loop over the loser's skeleton in Go `public.mergeTrees`
(merge.go lines 172-217), processed in canonical name order (Go map
iteration order is unspecified; every per-name action commutes and the
final encodings are name-canonical).  A name the winner lacks is copied
over (link and entry from the loser's record); equal cids are skipped;
unequal cids load both children and recurse through `rec`. -/
def mergeChildren (rec : Store → NodeM → NodeM → Option (Store × MergeResult)) :
    Store → List (String × SkeletonInfo) → List (String × SkeletonInfo) →
    List Link → Option (Store × List (String × SkeletonInfo) × List Link)
  | st, [], askel, aul => some (st, askel, aul)
  | st, (n, ri) :: rest, askel, aul =>
    match skelGet askel n with
    | none =>
      match loadNodeFromSkeletonInfoM st n ri with
      | none => none
      | some nd =>
        mergeChildren rec st rest (skelInsert askel n ri)
          (linksAdd aul { name := n, cid := nodeCid nd, isFile := nodeIsFile nd })
    | some li =>
      if li.cid = ri.cid then mergeChildren rec st rest askel aul
      else
        match loadNodeFromSkeletonInfoM st n li with
        | none => none
        | some lcl =>
          match loadNodeFromSkeletonInfoM st n ri with
          | none => none
          | some rem =>
            match rec st lcl rem with
            | none => none
            | some (st1, res) =>
              mergeChildren rec st1 rest
                (skelInsert askel n (mergeResultToSkeletonInfo res))
                (linksAdd aul (mergeResultToLink res n))

/-- Go `public.mergeTrees` (merge.go lines 168-236): process the loser's
skeleton, copy untouched winner blocks (the identity in this
single-universe store model), set `merge` to the loser's head, bump the
mtime, and put the winner. -/
def mergeTreesF (rec : Store → NodeM → NodeM → Option (Store × MergeResult))
    (now : Int) (st : Store) (a b : TreeM) : Option (Store × TreeM) :=
  match mergeChildren rec st (sortSkel b.skeleton) a.skeleton a.userland with
  | none => none
  | some (st1, askel, aul) =>
    let a1 : TreeM :=
      { a with
        skeleton := askel,
        userland := aul,
        h := { a.h with
               merge := some b.cid,
               info := a.h.info.map (fun i => { i with mtime := now }) } }
    let p := treePut st1 a1
    some (p.1, p.2.1)

/-- The body shared by the two branches of Go `public.mergeNodes`
(merge.go lines 159-165): recursive tree merge when both sides are trees,
scalar merge otherwise. -/
def mergeCombine (rec : Store → NodeM → NodeM → Option (Store × MergeResult))
    (now : Int) (st : Store) (p : NodeM × NodeM) : Option (Store × Cid) :=
  match p with
  | (.tree ta, .tree tb) =>
    (mergeTreesF rec now st ta tb).map (fun q => (q.1, q.2.cid))
  | (x, y) => mergeNodeF st x y

/-- Go `public.mergeNodes` (merge.go lines 152-166): if
`aGen < bGen || (aGen == bGen && b.cid < a.cid)` swap so `a` is the
winner, then combine. -/
def mergeNodesF (rec : Store → NodeM → NodeM → Option (Store × MergeResult))
    (now : Int) (st : Store) (a b : NodeM) (aGen bGen : Nat) :
    Option (Store × Cid) :=
  mergeCombine rec now st
    (if aGen < bGen ∨ (aGen = bGen ∧ nodeCid b < nodeCid a) then (b, a)
     else (a, b))

/-- The classification step of Go `public.merge` (merge.go lines
51-141), after both chains have been materialized: the first hit of the
nested search gives the generation pair; `aGen = 0 < bGen` is
`FastForward` (return `b`'s head), `bGen = 0 < aGen` is `LocalAhead`
(return `a`'s head), anything else is a `MergeCommit` through
`mergeNodes`; with no common history the generations are the chain
lengths minus one. -/
def mergeSearch (rec : Store → NodeM → NodeM → Option (Store × MergeResult))
    (now : Int) (st : Store) (a b : NodeM) (A B : List Cid) :
    Option (Store × MergeResult) :=
  match searchChains A B with
  | some (i, j) =>
    if i = 0 ∧ 0 < j then
      some (st, { type := .fastForward, cid := nodeCid b, userland := 0,
                  metadata := none, size := nodeHistSize b,
                  isFile := nodeIsFile b })
    else if 0 < i ∧ j = 0 then
      some (st, { type := .localAhead, cid := nodeCid a, userland := 0,
                  metadata := none, size := nodeHistSize a,
                  isFile := nodeIsFile a })
    else
      (mergeNodesF rec now st a b i j).map (fun p =>
        (p.1, { type := .mergeCommit, cid := p.2, userland := 0,
                metadata := none, size := 0, isFile := nodeIsFile a }))
  | none =>
    (mergeNodesF rec now st a b (A.length - 1) (B.length - 1)).map (fun p =>
      (p.1, { type := .mergeCommit, cid := p.2, userland := 0,
              metadata := none, size := 0, isFile := nodeIsFile a }))

/-- One unfolding of Go `public.merge` (merge.go lines 19-141): equality
first (`InSync`), then the ancestry search over both history chains. -/
def mergeF (rec : Store → NodeM → NodeM → Option (Store × MergeResult))
    (now : Int) (fuelChain : Nat) (st : Store) (a b : NodeM) :
    Option (Store × MergeResult) :=
  if nodeCid a = nodeCid b then
    some (st, { type := .inSync, cid := nodeCid a, userland := 0,
                metadata := none, size := nodeHistSize a,
                isFile := nodeIsFile a })
  else
    match nodeChain st fuelChain a, nodeChain st fuelChain b with
    | some A, some B => mergeSearch rec now st a b A B
    | _, _ => none

/-- Go `public.merge`, tied off with fuel for the recursion through
`mergeTrees` into child merges. -/
def mergeFuel (now : Int) : Nat → Store → NodeM → NodeM →
    Option (Store × MergeResult)
  | 0, _, _, _ => none
  | fuel + 1, st, a, b => mergeF (mergeFuel now fuel) now (fuel + 1) st a b

theorem scanIdx_some {c : Cid} {B : List Cid} {j : Nat}
    (h : scanIdx c B = some j) :
    B[j]? = some c ∧ ∀ j' < j, B[j']? ≠ some c := by
  induction B generalizing j with
  | nil => simp [scanIdx] at h
  | cons x xs ih =>
    by_cases hx : x = c
    · rw [scanIdx, if_pos hx] at h
      obtain rfl : j = 0 := by simpa using h.symm
      subst hx
      exact ⟨by simp, by omega⟩
    · rw [scanIdx, if_neg hx] at h
      obtain ⟨j0, hj0, rfl⟩ := Option.map_eq_some.mp h
      obtain ⟨h1, h2⟩ := ih hj0
      refine ⟨by simpa using h1, ?_⟩
      intro j' hj'
      cases j' with
      | zero => simpa using hx
      | succ k =>
        rw [List.getElem?_cons_succ]
        exact h2 k (by omega)

theorem scanIdx_none {c : Cid} {B : List Cid} (h : scanIdx c B = none) :
    ∀ j : Nat, B[j]? ≠ some c := by
  induction B with
  | nil => simp
  | cons x xs ih =>
    by_cases hx : x = c
    · rw [scanIdx, if_pos hx] at h; exact absurd h (by simp)
    · rw [scanIdx, if_neg hx] at h
      intro j
      cases j with
      | zero => simpa using hx
      | succ k =>
        rw [List.getElem?_cons_succ]
        exact ih (Option.map_eq_none.mp h) k

theorem scanIdx_isSome {c : Cid} {B : List Cid} {j : Nat}
    (h : B[j]? = some c) : (scanIdx c B).isSome := by
  induction B generalizing j with
  | nil => simp at h
  | cons x xs ih =>
    simp only [scanIdx]
    by_cases hx : x = c
    · rw [if_pos hx]; rfl
    · rw [if_neg hx]
      cases j with
      | zero => exact absurd (by simpa using h) hx
      | succ k =>
        rw [List.getElem?_cons_succ] at h
        have h3 := ih h
        cases h4 : scanIdx c xs with
        | none => rw [h4] at h3; simp at h3
        | some v => rfl

theorem searchChains_some_spec {A B : List Cid} {i j : Nat}
    (h : searchChains A B = some (i, j)) :
    (∃ x, A[i]? = some x ∧ B[j]? = some x ∧ ∀ j' < j, B[j']? ≠ some x) ∧
      ∀ i' < i, ∀ x, A[i']? = some x → ∀ j' : Nat, B[j']? ≠ some x := by
  induction A generalizing i with
  | nil => simp [searchChains] at h
  | cons a0 A' ih =>
    cases hscan : scanIdx a0 B with
    | some j0 =>
      rw [searchChains, hscan] at h
      obtain ⟨rfl, rfl⟩ : 0 = i ∧ j0 = j := by simpa using h
      obtain ⟨h1, h2⟩ := scanIdx_some hscan
      exact ⟨⟨a0, by simp, h1, h2⟩, by omega⟩
    | none =>
      rw [searchChains, hscan] at h
      obtain ⟨⟨i0, j1⟩, hsc, hpair⟩ := Option.map_eq_some.mp h
      obtain ⟨rfl, rfl⟩ : i = i0 + 1 ∧ j1 = j := by
        constructor <;> · simp only [Prod.mk.injEq] at hpair; omega
      obtain ⟨⟨x, hx1, hx2, hx3⟩, hmin⟩ := ih hsc
      refine ⟨⟨x, by simpa using hx1, hx2, hx3⟩, ?_⟩
      intro i' hi' y hy j'
      cases i' with
      | zero =>
        obtain rfl : a0 = y := by simpa using hy
        exact scanIdx_none hscan j'
      | succ k =>
        rw [List.getElem?_cons_succ] at hy
        exact hmin k (by omega) y hy j'

theorem searchChains_none {A B : List Cid} (h : searchChains A B = none) :
    ∀ (i j : Nat) (x : Cid), A[i]? = some x → B[j]? ≠ some x := by
  induction A with
  | nil => simp
  | cons a0 A' ih =>
    cases hscan : scanIdx a0 B with
    | some j0 => rw [searchChains, hscan] at h; exact absurd h (by simp)
    | none =>
      rw [searchChains, hscan] at h
      intro i j x hx
      cases i with
      | zero =>
        obtain rfl : a0 = x := by simpa using hx
        exact scanIdx_none hscan j
      | succ k =>
        rw [List.getElem?_cons_succ] at hx
        exact ih (Option.map_eq_none.mp h) k j x hx

theorem searchChains_isSome {A B : List Cid} {i j : Nat} {x : Cid}
    (hA : A[i]? = some x) (hB : B[j]? = some x) :
    (searchChains A B).isSome := by
  cases hs : searchChains A B with
  | none => exact absurd hB (searchChains_none hs i j x hA)
  | some p => rfl

/-- All common cids of two aligned chains lie on one diagonal: any two
matches `(i, j)` and `(i', j')` satisfy `i + j' = i' + j`. -/
theorem match_diag {A B : List Cid}
    (halign : ∀ i j x, A[i]? = some x → B[j]? = some x → A.drop i = B.drop j)
    (hNB : B.Nodup) {i j i' j' : Nat} {x y : Cid}
    (h1 : A[i]? = some x) (h2 : B[j]? = some x)
    (h3 : A[i']? = some y) (h4 : B[j']? = some y) :
    i + j' = i' + j := by
  rcases Nat.le_total i i' with hle | hle
  · have hd := halign i j x h1 h2
    have hA' : (A.drop i)[i' - i]? = some y := by
      rw [List.getElem?_drop]
      rwa [show i + (i' - i) = i' by omega]
    have hB' : B[j + (i' - i)]? = some y := by
      rw [← List.getElem?_drop, ← hd]
      exact hA'
    have hlt : j' < B.length := (List.getElem?_eq_some.mp h4).1
    have := List.getElem?_inj hlt hNB (h4.trans hB'.symm)
    omega
  · have hd := halign i' j' y h3 h4
    have hA' : (A.drop i')[i - i']? = some x := by
      rw [List.getElem?_drop]
      rwa [show i' + (i - i') = i by omega]
    have hB' : B[j' + (i - i')]? = some x := by
      rw [← List.getElem?_drop, ← hd]
      exact hA'
    have hlt : j < B.length := (List.getElem?_eq_some.mp h2).1
    have := List.getElem?_inj hlt hNB (h2.trans hB'.symm)
    omega

/-- The nested ancestry search is symmetric on aligned duplicate-free
chains: swapping the chains swaps the resulting generation pair. -/
theorem searchChains_swap {A B : List Cid}
    (halign : ∀ i j x, A[i]? = some x → B[j]? = some x → A.drop i = B.drop j)
    (hNB : B.Nodup) :
    searchChains B A = (searchChains A B).map (fun p => (p.2, p.1)) := by
  cases hAB : searchChains A B with
  | none =>
    cases hBA : searchChains B A with
    | none => rfl
    | some pq =>
      obtain ⟨p, q⟩ := pq
      obtain ⟨⟨y, hBp, hAq, _⟩, _⟩ := searchChains_some_spec hBA
      exact absurd hBp (searchChains_none hAB q p y hAq)
  | some ij =>
    obtain ⟨i, j⟩ := ij
    obtain ⟨⟨x, hAi, hBj, hjmin⟩, himin⟩ := searchChains_some_spec hAB
    have hsome : (searchChains B A).isSome := searchChains_isSome hBj hAi
    obtain ⟨⟨p, q⟩, hBA⟩ := Option.isSome_iff_exists.mp hsome
    obtain ⟨⟨y, hBp, hAq, hqmin⟩, hpmin⟩ := searchChains_some_spec hBA
    have hdiag := match_diag halign hNB hAi hBj hAq hBp
    have hqi : i ≤ q := by
      by_contra hc
      exact himin q (by omega) y hAq p hBp
    have hpj : p ≤ j := by
      by_contra hc
      exact hpmin j (by omega) x hBj i hAi
    have hp : p = j ∧ q = i := by omega
    rw [hBA, hp.1, hp.2]
    rfl

theorem chainFrom_head {st : Store} {f : Nat} {c : Cid} {p : Option Cid}
    {l : List Cid} (h : chainFrom st f c p = some l) : l[0]? = some c := by
  cases p with
  | none =>
    obtain rfl : l = [c] := by simpa [chainFrom] using h.symm
    simp
  | some q =>
    cases f with
    | zero => simp [chainFrom] at h
    | succ g =>
      simp only [chainFrom] at h
      cases hl : loadNodeM st ("") q with
      | none => rw [hl] at h; simp at h
      | some n =>
        rw [hl] at h
        obtain ⟨l1, _, rfl⟩ := Option.map_eq_some.mp h
        simp

/-- A walked chain is a function of its starting point: the fuel does not
influence a successful walk. -/
theorem chainFrom_congr {st : Store} :
    ∀ {f f' : Nat} {c : Cid} {p : Option Cid} {l l' : List Cid},
      chainFrom st f c p = some l → chainFrom st f' c p = some l' → l = l' := by
  intro f
  induction f with
  | zero =>
    intro f' c p l l' h h'
    cases p with
    | none =>
      obtain rfl : l = [c] := by simpa [chainFrom] using h.symm
      cases f' with
      | zero => simpa [chainFrom] using h'
      | succ g' => simpa [chainFrom] using h'
    | some q => simp [chainFrom] at h
  | succ g ih =>
    intro f' c p l l' h h'
    cases p with
    | none =>
      obtain rfl : l = [c] := by simpa [chainFrom] using h.symm
      cases f' with
      | zero => simpa [chainFrom] using h'
      | succ g' => simpa [chainFrom] using h'
    | some q =>
      cases f' with
      | zero => simp [chainFrom] at h'
      | succ g' =>
        simp only [chainFrom] at h h'
        cases hl : loadNodeM st ("") q with
        | none => rw [hl] at h; simp at h
        | some n =>
          rw [hl] at h h'
          obtain ⟨l1, hl1, rfl⟩ := Option.map_eq_some.mp h
          obtain ⟨l2, hl2, rfl⟩ := Option.map_eq_some.mp h'
          rw [ih hl1 hl2]

/-- Every position of a walked chain starts a chain of its own, rooted at
the stored node at that cid.  The hypothesis ties the walk's starting
backpointer to the store (Merkle invariant: an in-memory head decodes
from its own cid). -/
theorem chainFrom_suffix {st : Store} :
    ∀ {f : Nat} {c : Cid} {p : Option Cid} {l : List Cid},
      chainFrom st f c p = some l →
      (∃ n, loadNodeM st ("") c = some n ∧ nodePrev n = p) →
      ∀ (i : Nat) (x : Cid), l[i]? = some x →
        ∃ g n, loadNodeM st ("") x = some n ∧
          chainFrom st g x (nodePrev n) = some (l.drop i) := by
  intro f
  induction f with
  | zero =>
    intro c p l h hmem i x hx
    cases p with
    | none =>
      obtain rfl : l = [c] := by simpa [chainFrom] using h.symm
      cases i with
      | zero =>
        obtain rfl : c = x := by simpa using hx
        obtain ⟨n, hn, hp⟩ := hmem
        exact ⟨0, n, hn, by rw [hp]; rfl⟩
      | succ k => simp at hx
    | some q => simp [chainFrom] at h
  | succ g ih =>
    intro c p l h hmem i x hx
    cases p with
    | none =>
      obtain rfl : l = [c] := by simpa [chainFrom] using h.symm
      cases i with
      | zero =>
        obtain rfl : c = x := by simpa using hx
        obtain ⟨n, hn, hp⟩ := hmem
        exact ⟨0, n, hn, by rw [hp]; rfl⟩
      | succ k => simp at hx
    | some q =>
      simp only [chainFrom] at h
      cases hl : loadNodeM st ("") q with
      | none => rw [hl] at h; simp at h
      | some n1 =>
        rw [hl] at h
        obtain ⟨l1, hl1, rfl⟩ := Option.map_eq_some.mp h
        cases i with
        | zero =>
          obtain rfl : c = x := by simpa using hx
          obtain ⟨n, hn, hp⟩ := hmem
          refine ⟨g + 1, n, hn, ?_⟩
          rw [hp]
          simp only [chainFrom, hl, hl1, Option.map_some]
          rfl
        | succ k =>
          rw [List.getElem?_cons_succ] at hx
          have := ih hl1 ⟨n1, hl, rfl⟩ k x hx
          simpa using this

/-- Two chains walked over the same store agree from any common cid on. -/
theorem chains_align {st : Store} {fA fB : Nat} {cA cB : Cid}
    {pA pB : Option Cid} {A B : List Cid}
    (hA : chainFrom st fA cA pA = some A)
    (hB : chainFrom st fB cB pB = some B)
    (hmemA : ∃ n, loadNodeM st ("") cA = some n ∧ nodePrev n = pA)
    (hmemB : ∃ n, loadNodeM st ("") cB = some n ∧ nodePrev n = pB) :
    ∀ (i j : Nat) (x : Cid), A[i]? = some x → B[j]? = some x →
      A.drop i = B.drop j := by
  intro i j x hx hy
  obtain ⟨g1, n1, hn1, hc1⟩ := chainFrom_suffix hA hmemA i x hx
  obtain ⟨g2, n2, hn2, hc2⟩ := chainFrom_suffix hB hmemB j x hy
  obtain rfl : n1 = n2 := by rw [hn1] at hn2; exact Option.some.inj hn2
  exact chainFrom_congr hc1 hc2

/-- The swap rule of `mergeNodes` picks the same winner regardless of
argument order (merge.go lines 152-166). -/
theorem mergeNodesF_swap
    (rec : Store → NodeM → NodeM → Option (Store × MergeResult))
    (now : Int) (st : Store) (a b : NodeM) (i j : Nat)
    (hne : nodeCid a ≠ nodeCid b) :
    mergeNodesF rec now st a b i j = mergeNodesF rec now st b a j i := by
  unfold mergeNodesF
  congr 1
  rcases Nat.lt_trichotomy i j with h | h | h
  · have hc2 : ¬(j < i ∨ (j = i ∧ nodeCid a < nodeCid b)) := by
      rintro (h2 | ⟨h2, _⟩) <;> omega
    rw [if_pos (Or.inl h), if_neg hc2]
  · subst h
    rcases Nat.lt_trichotomy (nodeCid a) (nodeCid b) with hc | hc | hc
    · have hc1 : ¬(i < i ∨ (i = i ∧ nodeCid b < nodeCid a)) := by
        rintro (h2 | ⟨_, h2⟩)
        · omega
        · exact Nat.lt_asymm hc h2
      rw [if_neg hc1, if_pos (Or.inr ⟨rfl, hc⟩)]
    · exact absurd hc hne
    · have hc2 : ¬(i < i ∨ (i = i ∧ nodeCid a < nodeCid b)) := by
        rintro (h2 | ⟨_, h2⟩)
        · omega
        · exact Nat.lt_asymm hc h2
      rw [if_pos (Or.inr ⟨rfl, hc⟩), if_neg hc2]
  · have hc1 : ¬(i < j ∨ (i = j ∧ nodeCid b < nodeCid a)) := by
      rintro (h2 | ⟨h2, _⟩) <;> omega
    rw [if_neg hc1, if_pos (Or.inl h)]

/-- Evaluation of the classification step on a fast-forward search
result. -/
theorem mergeSearch_eq_ff
    (rec : Store → NodeM → NodeM → Option (Store × MergeResult))
    (now : Int) (st : Store) (a b : NodeM) (A B : List Cid) {j : Nat}
    (hsc : searchChains A B = some (0, j)) (hj : 0 < j) :
    mergeSearch rec now st a b A B =
      some (st, { type := .fastForward, cid := nodeCid b, userland := 0,
                  metadata := none, size := nodeHistSize b,
                  isFile := nodeIsFile b }) := by
  simp only [mergeSearch, hsc]
  rw [if_pos ⟨by trivial, hj⟩]

/-- Evaluation of the classification step on a local-ahead search
result. -/
theorem mergeSearch_eq_la
    (rec : Store → NodeM → NodeM → Option (Store × MergeResult))
    (now : Int) (st : Store) (a b : NodeM) (A B : List Cid) {i : Nat}
    (hsc : searchChains A B = some (i, 0)) (hi : 0 < i) :
    mergeSearch rec now st a b A B =
      some (st, { type := .localAhead, cid := nodeCid a, userland := 0,
                  metadata := none, size := nodeHistSize a,
                  isFile := nodeIsFile a }) := by
  simp only [mergeSearch, hsc]
  rw [if_neg (by rintro ⟨h1, h2⟩; omega), if_pos ⟨hi, by trivial⟩]

/-- Evaluation of the classification step on a divergent search result. -/
theorem mergeSearch_eq_mc
    (rec : Store → NodeM → NodeM → Option (Store × MergeResult))
    (now : Int) (st : Store) (a b : NodeM) (A B : List Cid) {i j : Nat}
    (hsc : searchChains A B = some (i, j)) (hi : 0 < i) (hj : 0 < j) :
    mergeSearch rec now st a b A B =
      (mergeNodesF rec now st a b i j).map (fun p =>
        (p.1, { type := .mergeCommit, cid := p.2, userland := 0,
                metadata := none, size := 0, isFile := nodeIsFile a })) := by
  simp only [mergeSearch, hsc]
  rw [if_neg (by rintro ⟨h1, h2⟩; omega), if_neg (by rintro ⟨h1, h2⟩; omega)]

/-- The classification step returns the same cid under swapped arguments,
given symmetric search results. -/
theorem mergeSearch_swap
    (rec : Store → NodeM → NodeM → Option (Store × MergeResult))
    (now : Int) (st : Store) (a b : NodeM) (A B : List Cid)
    (hswap : searchChains B A = (searchChains A B).map (fun p => (p.2, p.1)))
    (hne : nodeCid a ≠ nodeCid b)
    (hA0 : A[0]? = some (nodeCid a)) (hB0 : B[0]? = some (nodeCid b)) :
    (mergeSearch rec now st a b A B).map (fun p => p.2.cid) =
      (mergeSearch rec now st b a B A).map (fun p => p.2.cid) := by
  cases hsc : searchChains A B with
  | none =>
    have hsc2 : searchChains B A = none := by rw [hswap, hsc]; rfl
    simp only [mergeSearch, hsc, hsc2]
    rw [mergeNodesF_swap rec now st a b (A.length - 1) (B.length - 1) hne]
    cases mergeNodesF rec now st b a (B.length - 1) (A.length - 1) with
    | none => rfl
    | some p => rfl
  | some ij =>
    obtain ⟨i, j⟩ := ij
    have hsc2 : searchChains B A = some (j, i) := by rw [hswap, hsc]; rfl
    rcases Nat.eq_zero_or_pos i with hi | hi
    · rcases Nat.eq_zero_or_pos j with hj | hj
      · exfalso
        subst hi; subst hj
        obtain ⟨⟨x, hx1, hx2, _⟩, _⟩ := searchChains_some_spec hsc
        rw [hA0] at hx1
        rw [hB0] at hx2
        exact hne ((Option.some.inj hx1).trans (Option.some.inj hx2).symm)
      · subst hi
        rw [mergeSearch_eq_ff rec now st a b A B hsc hj,
          mergeSearch_eq_la rec now st b a B A hsc2 hj]
        rfl
    · rcases Nat.eq_zero_or_pos j with hj | hj
      · subst hj
        rw [mergeSearch_eq_la rec now st a b A B hsc hi,
          mergeSearch_eq_ff rec now st b a B A hsc2 hi]
        rfl
      · rw [mergeSearch_eq_mc rec now st a b A B hsc hi hj,
          mergeSearch_eq_mc rec now st b a B A hsc2 hj hi]
        rw [mergeNodesF_swap rec now st a b i j hne]
        cases mergeNodesF rec now st b a j i with
        | none => rfl
        | some p => rfl

/-- The two one-level merges of swapped arguments produce the same cid. -/
theorem mergeF_swap
    (rec : Store → NodeM → NodeM → Option (Store × MergeResult))
    (now : Int) (fc : Nat) (st : Store) (a b : NodeM) {A B : List Cid}
    (hA : nodeChain st fc a = some A) (hB : nodeChain st fc b = some B)
    (hmemA : ∃ n, loadNodeM st ("") (nodeCid a) = some n ∧
      nodePrev n = nodePrev a)
    (hmemB : ∃ n, loadNodeM st ("") (nodeCid b) = some n ∧
      nodePrev n = nodePrev b)
    (hNB : B.Nodup) :
    (mergeF rec now fc st a b).map (fun p => p.2.cid) =
      (mergeF rec now fc st b a).map (fun p => p.2.cid) := by
  by_cases hcc : nodeCid a = nodeCid b
  · simp [mergeF, hcc]
  · have halign := chains_align hA hB hmemA hmemB
    have hswap := searchChains_swap halign hNB
    have hA0 : A[0]? = some (nodeCid a) := chainFrom_head hA
    have hB0 : B[0]? = some (nodeCid b) := chainFrom_head hB
    simp only [mergeF, if_neg hcc, if_neg (Ne.symm hcc), hA, hB]
    exact mergeSearch_swap rec now st a b A B hswap hcc hA0 hB0

/-- C1: merge is commutative in the resulting cid.  For any two nodes of
the persisted store whose history chains exist and are duplicate-free
(Merkle acyclicity) and whose heads decode from their own cids,
`merge(a,b)` and `merge(b,a)` produce the same cid: the swap rule of
`mergeNodes` picks the same winner regardless of argument order, and the
nested ancestry search yields swapped generation pairs. -/
theorem merge_cid_commutative (now : Int) (fuel : Nat) (st : Store)
    (a b : NodeM) (A B : List Cid)
    (hA : nodeChain st (fuel + 1) a = some A)
    (hB : nodeChain st (fuel + 1) b = some B)
    (hmemA : ∃ n, loadNodeM st ("") (nodeCid a) = some n ∧
      nodePrev n = nodePrev a)
    (hmemB : ∃ n, loadNodeM st ("") (nodeCid b) = some n ∧
      nodePrev n = nodePrev b)
    (hNB : B.Nodup) :
    (mergeFuel now (fuel + 1) st a b).map (fun p => p.2.cid) =
      (mergeFuel now (fuel + 1) st b a).map (fun p => p.2.cid) :=
  mergeF_swap (mergeFuel now fuel) now (fuel + 1) st a b hA hB hmemA hmemB hNB

/-- C5: fast-forward recognition.  If `a`'s head cid lies on `b`'s
history chain while the two heads differ, `merge(a,b)` classifies as
`FastForward` and returns `b`'s head cid unchanged. -/
theorem merge_fastforward_recognition (now : Int) (fuel : Nat) (st : Store)
    (a b : NodeM) (A B : List Cid)
    (hA : nodeChain st (fuel + 1) a = some A)
    (hB : nodeChain st (fuel + 1) b = some B)
    (hne : nodeCid a ≠ nodeCid b)
    (hanc : nodeCid a ∈ B) :
    mergeFuel now (fuel + 1) st a b =
      some (st, { type := .fastForward, cid := nodeCid b, userland := 0,
                  metadata := none, size := nodeHistSize b,
                  isFile := nodeIsFile b }) := by
  have hA0 : A[0]? = some (nodeCid a) := chainFrom_head hA
  have hB0 : B[0]? = some (nodeCid b) := chainFrom_head hB
  obtain ⟨A', rfl⟩ : ∃ A', A = nodeCid a :: A' := by
    cases A with
    | nil => simp at hA0
    | cons x xs => exact ⟨xs, by rw [show x = nodeCid a by simpa using hA0]⟩
  obtain ⟨j0, hj0⟩ : ∃ i : Nat, B[i]? = some (nodeCid a) :=
    List.mem_iff_getElem?.mp hanc
  have hscan : (scanIdx (nodeCid a) B).isSome := scanIdx_isSome hj0
  obtain ⟨j, hj⟩ := Option.isSome_iff_exists.mp hscan
  have hjspec := scanIdx_some hj
  have hjpos : 0 < j := by
    rcases Nat.eq_zero_or_pos j with h0 | h0
    · subst h0
      rw [hB0] at hjspec
      exact absurd (Option.some.inj hjspec.1).symm hne
    · exact h0
  have hsc : searchChains (nodeCid a :: A') B = some (0, j) := by
    simp only [searchChains, hj]
  show mergeF (mergeFuel now fuel) now (fuel + 1) st a b = _
  simp only [mergeF, if_neg hne, hA, hB]
  exact mergeSearch_eq_ff (mergeFuel now fuel) now st a b _ B hsc hjpos

/-- C10: `Tree.ModTime` is derived from `info.Ctime` (not `Mtime`), so the
reported directory modification time never changes across mutations, even
though every mutation (`updateUserlandLink`) rewrites `info.Mtime`;
`File.ModTime`, by contrast, is derived from `Mtime`. -/
theorem tree_modtime_is_ctime :
    (∀ t : TreeM, treeModTime t = ((t.h.info.map Info.ctime).getD 0)) ∧
    (∀ f : FileM, fileModTime f = ((f.h.info.map Info.mtime).getD 0)) ∧
    (∀ (now : Int) (t : TreeM) (name : String) (res : PutResult),
      treeModTime (updateUserlandLink now t name res) = treeModTime t ∧
      ((updateUserlandLink now t name res).h.info.map Info.mtime) =
        (t.h.info.map (fun _ => now))) ∧
    (∀ (now : Int) (t : TreeM) (name : String),
      treeModTime (removeUserlandLink now t name) = treeModTime t) := by
  refine ⟨fun t => rfl, fun f => rfl, fun now t name res => ⟨?_, ?_⟩,
    fun now t name => ?_⟩
  · show ((t.h.info.map (fun i => { i with mtime := now })).map
      Info.ctime).getD 0 = ((t.h.info.map Info.ctime).getD 0)
    cases t.h.info <;> rfl
  · show ((t.h.info.map (fun i => { i with mtime := now })).map
      Info.mtime) = (t.h.info.map (fun _ => now))
    cases t.h.info <;> rfl
  · show ((t.h.info.map (fun i => { i with mtime := now })).map
      Info.ctime).getD 0 = ((t.h.info.map Info.ctime).getD 0)
    cases t.h.info <;> rfl

/-- A header with every optional field absent. -/
def hdrEmpty : Header :=
  { info := none, previous := none, merge := none, metadata := none,
    skeleton := none, userland := none }

/-- C8 counterexample: the claim says an absent `previous` is omitted from
the encoded header map, but `encodeBlock` always inserts the key — a nil
pointer encodes as null, not as an absent entry. -/
theorem header_encode_counterexample :
    hdrEmpty.previous = none ∧
      mapLookup (encodeBlockMap hdrEmpty) ("previous") = some EncVal.null ∧
      mapLookup (encodeBlockMap hdrEmpty) ("previous") ≠ none := by
  refine ⟨rfl, rfl, ?_⟩
  intro h
  simp [mapLookup, encodeBlockMap, hdrEmpty] at h

/-- C8 amended: the encoded header map always contains the five link keys
`metadata`, `previous`, `merge`, `skeleton`, `userland` — an absent field
appears as an explicit null value, not as a missing key; only the `info`
key is conditional on `h.Info` being non-nil. -/
theorem header_encode_always_five_keys (h : Header) :
    mapLookup (encodeBlockMap h) ("metadata") = some (encCidPtr h.metadata) ∧
    mapLookup (encodeBlockMap h) ("previous") = some (encCidPtr h.previous) ∧
    mapLookup (encodeBlockMap h) ("merge") = some (encCidPtr h.merge) ∧
    mapLookup (encodeBlockMap h) ("skeleton") = some (encCidPtr h.skeleton) ∧
    mapLookup (encodeBlockMap h) ("userland") = some (encCidPtr h.userland) ∧
    mapLookup (encodeBlockMap h) ("info") = (h.info.map EncVal.infoMap) := by
  refine ⟨rfl, rfl, rfl, rfl, rfl, ?_⟩
  cases hinfo : h.info with
  | none => simp only [encodeBlockMap, hinfo]; rfl
  | some i => simp only [encodeBlockMap, hinfo]; rfl

/-- A fresh five-byte file. -/
def wFileC6 : FileM := NewFileM 0 ("f.txt") [1, 2, 3, 4, 5]

/-- C6 counterexample: the store's file-writer reports a byte length of 5
for this file's content, but after `Put` the recorded size (in the info
and in the returned `PutResult`) is 0, not 5. -/
theorem file_put_size_counterexample :
    putFileSize [1, 2, 3, 4, 5] = 5 ∧
    (filePut [] wFileC6).map (fun p => p.2.2.size) = some 0 ∧
    (filePut [] wFileC6).map
      (fun p => ((p.2.1.h.info.map Info.size).getD 0)) = some 0 ∧
    (filePut [] wFileC6).map (fun p => p.2.2.size) ≠
      some (putFileSize [1, 2, 3, 4, 5]) := by
  refine ⟨rfl, rfl, rfl, ?_⟩
  intro hcontra
  simp [filePut, wFileC6, NewFileM, NewInfo, putFileSize] at hcontra

/-- C6 amended: `Put` never recomputes sizes.  `File.Put` discards the
byte length the store's file-writer reports and leaves `Info.Size`
untouched; `Tree.Put` and `updateUserlandLink` never sum children's
sizes; the `PutResult` size is whatever `Info.Size` already held. -/
theorem put_preserves_info_size :
    (∀ st f st1 f1 r, filePut st f = some (st1, f1, r) →
      (f1.h.info.map Info.size) = (f.h.info.map Info.size) ∧
        r.size = ((f.h.info.map Info.size).getD 0)) ∧
    (∀ st t, ((treePut st t).2.1.h.info.map Info.size) =
        (t.h.info.map Info.size) ∧
      (treePut st t).2.2.size = ((t.h.info.map Info.size).getD 0)) ∧
    (∀ (now : Int) (t : TreeM) (name : String) (res : PutResult),
      ((updateUserlandLink now t name res).h.info.map Info.size) =
        (t.h.info.map Info.size)) := by
  refine ⟨?_, ?_, ?_⟩
  · intro st f st1 f1 r hput
    cases hc : f.content with
    | none => rw [filePut, hc] at hput; exact absurd hput (by simp)
    | some bs =>
      rw [filePut, hc] at hput
      have h2 : (f.h.info.map Info.size) = (f1.h.info.map Info.size) :=
        Option.some.inj
          (congrArg (fun o => o.map (fun p => p.2.1.h.info.map Info.size)) hput)
      have h3 : ((f.h.info.map Info.size).getD 0) = r.size :=
        Option.some.inj
          (congrArg (fun o => o.map (fun p => p.2.2.size)) hput)
      exact ⟨h2.symm, h3.symm⟩
  · intro st t
    exact ⟨rfl, rfl⟩
  · intro now t name res
    show ((t.h.info.map (fun i => { i with mtime := now })).map
      Info.size) = (t.h.info.map Info.size)
    cases t.h.info <;> rfl

/-- An empty root directory. -/
def wTreeRm : TreeM := NewEmptyTree 0 ("root")

/-- C2 counterexample: removing a name that is not in the userland of the
addressed directory does not return NotFound when it is the final path
segment — `Rm` removes unconditionally and re-puts, producing a new
revision. -/
theorem rm_missing_leaf_counterexample :
    linksGet wTreeRm.userland ("x") = none ∧
    rmM 0 [] wTreeRm [("x")] =
      .ok (treePut [] (removeUserlandLink 0 wTreeRm ("x"))) ∧
    rmM 0 [] wTreeRm [("x")] ≠ .error ErrM.notFound := by
  refine ⟨rfl, rfl, ?_⟩
  intro h
  rw [rmM] at h
  simp at h

/-- C2 amended: `Rm` returns NotFound exactly for a missing interior
segment; a missing final segment is silently accepted — the tree is re-put
(a new revision) with its userland unchanged. -/
theorem rm_notfound_only_interior :
    (∀ (now : Int) (st : Store) (t : TreeM) (name : String),
      name ≠ "" → linksGet t.userland name = none →
      rmM now st t [name] = .ok (treePut st (removeUserlandLink now t name)) ∧
        (removeUserlandLink now t name).userland = t.userland) ∧
    (∀ (now : Int) (st : Store) (t : TreeM) (name : String)
      (tl : List String), tl ≠ [] → name ≠ "" →
      linksGet t.userland name = none →
      rmM now st t (name :: tl) = .error ErrM.notFound) := by
  constructor
  · intro now st t name hne hget
    constructor
    · rw [rmM, if_neg hne]
    · show linksRemove t.userland name = t.userland
      rw [linksRemove]
      apply List.filter_eq_self.mpr
      intro x hx
      have := List.find?_eq_none.mp hget x hx
      simpa using this
  · intro now st t name tl htl hne hget
    cases tl with
    | nil => exact absurd rfl htl
    | cons y ys => rw [rmM, if_neg hne, hget]

/-- Consecutive history entries are linked: each entry's `previous` is the
next entry's cid. -/
def linkedEntries (l : List HistoryEntry) : Prop :=
  ∀ (k : Nat) (e1 e2 : HistoryEntry),
    l[k]? = some e1 → l[k + 1]? = some e2 → e1.previous = some e2.cid

theorem loadHistoryEntryM_cid {st : Store} {c : Cid} {e : HistoryEntry}
    (h : loadHistoryEntryM st c = some e) : e.cid = c := by
  rw [loadHistoryEntryM] at h
  cases hh : loadHeaderM st c with
  | none => rw [hh] at h; cases h
  | some hd =>
    rw [hh] at h
    rw [← Option.some.inj h]

theorem historyLoop_length_le {st : Store} {max : Int} :
    ∀ (fuel : Nat) (prev : Option Cid) (log l : List HistoryEntry),
      (log.length : Int) < max → historyLoop st max prev log fuel = some l →
      (l.length : Int) ≤ max := by
  intro fuel
  induction fuel with
  | zero =>
    intro prev log l hlt h
    cases prev with
    | none =>
      obtain rfl : log = l := Option.some.inj h
      omega
    | some p => cases h
  | succ g ih =>
    intro prev log l hlt h
    cases prev with
    | none =>
      obtain rfl : log = l := Option.some.inj h
      omega
    | some p =>
      rw [historyLoop] at h
      cases hload : loadHistoryEntryM st p with
      | none => rw [hload] at h; cases h
      | some ent =>
        simp only [hload] at h
        by_cases heq : ((log ++ [ent]).length : Int) = max
        · rw [if_pos heq] at h
          obtain rfl : log ++ [ent] = l := Option.some.inj h
          omega
        · rw [if_neg heq] at h
          have hlt2 : ((log ++ [ent]).length : Int) < max := by
            simp only [List.length_append, List.length_cons,
              List.length_nil] at heq ⊢
            omega
          exact ih ent.previous (log ++ [ent]) l hlt2 h

theorem historyLoop_unbounded {st : Store} {max : Int} (hneg : max < 0) :
    ∀ (fuel : Nat) (prev : Option Cid) (log l : List HistoryEntry),
      log ≠ [] →
      (∀ e, log.getLast? = some e → e.previous = prev) →
      linkedEntries log →
      historyLoop st max prev log fuel = some l →
      l ≠ [] ∧ linkedEntries l ∧
        (∀ e, l.getLast? = some e → e.previous = none) ∧
        (∀ (k : Nat) (e : HistoryEntry), log[k]? = some e → l[k]? = some e) := by
  intro fuel
  induction fuel with
  | zero =>
    intro prev log l hne hlast hlink h
    cases prev with
    | none =>
      obtain rfl : log = l := Option.some.inj h
      exact ⟨hne, hlink, hlast, fun k e hk => hk⟩
    | some p => cases h
  | succ g ih =>
    intro prev log l hne hlast hlink h
    cases prev with
    | none =>
      obtain rfl : log = l := Option.some.inj h
      exact ⟨hne, hlink, hlast, fun k e hk => hk⟩
    | some p =>
      rw [historyLoop] at h
      cases hload : loadHistoryEntryM st p with
      | none => rw [hload] at h; cases h
      | some ent =>
        simp only [hload] at h
        have heq : ¬(((log ++ [ent]).length : Int) = max) := by
          have : (0 : Int) ≤ ((log ++ [ent]).length : Int) := Int.ofNat_nonneg _
          omega
        rw [if_neg heq] at h
        have hne2 : log ++ [ent] ≠ [] := by simp
        have hlast2 : ∀ e, (log ++ [ent]).getLast? = some e →
            e.previous = ent.previous := by
          intro e he
          rw [List.getLast?_concat] at he
          rw [← Option.some.inj he]
        have hlink2 : linkedEntries (log ++ [ent]) := by
          intro k e1 e2 hk1 hk2
          rcases Nat.lt_trichotomy (k + 1) log.length with hk | hk | hk
          · have h1 : log[k]? = some e1 := by
              rw [List.getElem?_append_left (by omega)] at hk1
              exact hk1
            have h2 : log[k + 1]? = some e2 := by
              rw [List.getElem?_append_left hk] at hk2
              exact hk2
            exact hlink k e1 e2 h1 h2
          · have h1 : log[k]? = some e1 := by
              rw [List.getElem?_append_left (by omega)] at hk1
              exact hk1
            have h2 : e2 = ent := by
              rw [List.getElem?_append_right (by omega), hk] at hk2
              simpa using hk2.symm
            have hlaste : log.getLast? = some e1 := by
              rw [List.getLast?_eq_getElem?]
              rw [show log.length - 1 = k by omega]
              exact h1
            have := hlast e1 hlaste
            rw [h2, loadHistoryEntryM_cid hload, this]
          · exfalso
            have hb : k + 1 < (log ++ [ent]).length :=
              (List.getElem?_eq_some.mp hk2).1
            simp only [List.length_append, List.length_cons,
              List.length_nil] at hb
            omega
        obtain ⟨c1, c2, c3, c4⟩ :=
          ih ent.previous (log ++ [ent]) l hne2 hlast2 hlink2 h
        refine ⟨c1, c2, c3, ?_⟩
        intro k e hk
        apply c4
        rw [List.getElem?_append_left ((List.getElem?_eq_some.mp hk).1)]
        exact hk

/-- C7 amended: for `max ≥ 2` the history log has at most `max` entries
(the length test fires after the append, reaching `max` exactly); for
`max = 1` the test can never fire — the log already holds one entry before
the loop — so the whole chain is returned (see the counterexample); for
`max < 0` the walk is unbounded and returns the entire chain, starting at
the node itself, consecutively linked, down to the first revision
(`previous = none`). -/
theorem history_max_amended :
    (∀ (st : Store) (self : HistoryEntry) (max : Int) (fuel : Nat)
      (l : List HistoryEntry), 2 ≤ max → historyM st self max fuel = some l →
      (l.length : Int) ≤ max) ∧
    (∀ (st : Store) (self : HistoryEntry) (max : Int) (fuel : Nat)
      (l : List HistoryEntry), max < 0 → historyM st self max fuel = some l →
      l[0]? = some self ∧ linkedEntries l ∧
        (∀ e, l.getLast? = some e → e.previous = none)) := by
  constructor
  · intro st self max fuel l hmax h
    exact historyLoop_length_le fuel self.previous [self] l (by simp; omega) h
  · intro st self max fuel l hmax h
    have hlast : ∀ e, [self].getLast? = some e → e.previous = self.previous := by
      intro e he
      rw [show [self].getLast? = some self from rfl] at he
      rw [← Option.some.inj he]
    have hlink : linkedEntries [self] := by
      intro k e1 e2 hk1 hk2
      rcases Nat.eq_zero_or_pos k with rfl | hk
      · simp at hk2
      · rw [List.getElem?_eq_none (by simp; omega)] at hk1
        cases hk1
    obtain ⟨c1, c2, c3, c4⟩ :=
      historyLoop_unbounded hmax fuel self.previous [self] l
        (by simp) hlast hlink h
    exact ⟨c4 0 self rfl, c2, c3⟩

/-- The headers of a three-revision chain used by the history
counterexample. -/
def hdrH2 : Header :=
  { info := some (NewInfo 0 NTDir), previous := none, merge := none,
    metadata := none, skeleton := none, userland := none }

/-- Second revision of the chain: points back at `hdrH2`. -/
def hdrH1 : Header :=
  { info := some (NewInfo 0 NTDir),
    previous := some (blockId (Blk.header hdrH2)), merge := none,
    metadata := none, skeleton := none, userland := none }

/-- The head entry of the chain: points back at `hdrH1`. -/
def entH0 : HistoryEntry :=
  { cid := 7, previous := some (blockId (Blk.header hdrH1)), type := NTDir,
    mtime := 0, size := 0 }

/-- The store holding the chain of the history counterexample. -/
def stH : Store := [Blk.header hdrH1, Blk.header hdrH2]

/-- C7 counterexample: with `max = 1` the history walk does not stop after
one entry — the log starts at length 1 and the `len(log) == max` test only
runs after an append, so it never fires and the entire three-entry chain
is returned. -/
theorem history_max_one_counterexample :
    (historyM stH entH0 1 9).map List.length = some 3 ∧
      ¬((3 : Int) ≤ 1) := by
  refine ⟨by decide, by decide⟩

theorem loadTreeM_spec {st : Store} {name : String} {c : Cid} {t : TreeM}
    (h : loadTreeM st name c = some t) :
    t.cid = c ∧ getBlk st c = some (Blk.header t.h) := by
  rw [loadTreeM] at h
  cases hh : loadHeaderM st c with
  | none => rw [hh] at h; cases h
  | some hd =>
    simp only [hh] at h
    have hblk : getBlk st c = some (Blk.header hd) := by
      rw [loadHeaderM] at hh
      cases hg : getBlk st c with
      | none => rw [hg] at hh; cases hh
      | some b =>
        rw [hg] at hh
        cases b with
        | header h0 =>
          have hh2 : (if h0.info.isSome then some h0 else none) = some hd := hh
          by_cases hin : h0.info.isSome
          · rw [if_pos hin] at hh2
            rw [← Option.some.inj hh2]
          · rw [if_neg hin] at hh2
            exact absurd hh2 (by simp)
        | links ls => exact absurd hh (by simp)
        | skeletonFile sk => exact absurd hh (by simp)
        | fileBytes bs => exact absurd hh (by simp)
        | ldBlock v => exact absurd hh (by simp)
    simp only [treeFromHeaderM] at h
    cases hinfo : hd.info with
    | none => simp only [hinfo] at h; cases h
    | some i =>
      simp only [hinfo] at h
      by_cases hty : i.type = NTDir
      · rw [if_pos hty] at h
        cases hsk : hd.skeleton with
        | none => simp only [hsk] at h; cases h
        | some skc =>
          simp only [hsk] at h
          cases hskb : getBlk st skc with
          | none => simp only [hskb] at h; cases h
          | some b =>
            simp only [hskb] at h
            cases b with
            | skeletonFile sk =>
              cases hul : hd.userland with
              | none => simp only [hul] at h; cases h
              | some ulc =>
                simp only [hul] at h
                cases hulb : getBlk st ulc with
                | none => simp only [hulb] at h; cases h
                | some b2 =>
                  simp only [hulb] at h
                  cases b2 with
                  | links ls =>
                    obtain rfl := (Option.some.inj h).symm
                    exact ⟨rfl, hblk⟩
                  | header h2 => cases h
                  | skeletonFile s2 => cases h
                  | fileBytes b3 => cases h
                  | ldBlock v2 => cases h
            | header h2 => cases h
            | links l2 => cases h
            | fileBytes b3 => cases h
            | ldBlock v2 => cases h
      · rw [if_neg hty] at h; cases h

/-- C4 amended: re-persisting a loaded, unmutated tree is not the identity
on the cid.  `Put` copies the current (loaded) cid into
`header.previous`, so the re-encoded header differs from the stored one
(whose `previous` cannot already point at its own cid) and hashes to a
new cid; the new revision's `previous` points at the original cid. -/
theorem put_reload_put_rotates_previous (st : Store) (name : String)
    (c : Cid) (t : TreeM) (hload : loadTreeM st name c = some t)
    (hnp : t.h.previous ≠ some c) :
    (treePut st t).2.1.h.previous = some c ∧ (treePut st t).2.2.cid ≠ c := by
  obtain ⟨hcid, hblk⟩ := loadTreeM_spec hload
  have hc0 : c ≠ 0 := by
    have h1 := getBlk_id hblk
    rw [← h1]
    exact Nat.pos_iff_ne_zero.mp (blockId_pos (Blk.header t.h))
  have hprev : (treePut st t).2.1.h.previous = some c := by
    show (if t.cid = 0 then t.h.previous else some t.cid) = some c
    rw [hcid, if_neg hc0]
  refine ⟨hprev, ?_⟩
  intro hcontra
  have hnew : (treePut st t).2.2.cid = blockId (Blk.header (treePut st t).2.1.h) :=
    rfl
  have hcb : blockId (Blk.header (treePut st t).2.1.h) = c := by
    rw [← hnew, hcontra]
  have hold : blockId (Blk.header t.h) = c := getBlk_id hblk
  have heq : (treePut st t).2.1.h = t.h := by
    have := blockId_inj (hcb.trans hold.symm)
    exact Blk.header.inj this
  have : (treePut st t).2.1.h.previous = t.h.previous := by rw [heq]
  rw [hprev] at this
  exact hnp this.symm

/-- An empty tree for the cid-stability counterexample. -/
def wTreeC4 : TreeM := NewEmptyTree 0 ("r")

/-- C4 counterexample: put an empty tree, reload it from its cid, and put
again without mutating: the second put yields a different cid (its header
now carries `previous = the first cid`), refuting
`put(put(t).reload()) == put(t)`. -/
theorem cid_stability_counterexample :
    ((loadTreeM (treePut [] wTreeC4).1 ("r") (treePut [] wTreeC4).2.2.cid).map
      (fun t2 => (treePut (treePut [] wTreeC4).1 t2).2.2.cid)) ≠
      some ((treePut [] wTreeC4).2.2.cid) := by
  decide

/-- C3: evaluation at the failing input.  `Mkdir(["a","b"])` on an empty
tree does not create `"a"` as an empty intermediate tree containing only
the leaf: the recursive branch calls `t.Mkdir(tail)` on the parent itself
(the freshly obtained `childDir` is discarded), so the leaf `"b"` is
created as a spurious top-level entry and `"a"` is linked to a snapshot of
the parent that already contains `"b"`.  The spec-expected top-level
userland is `["a"]`; the code produces `["b", "a"]`. -/
theorem mkdir_nested_bug_eval :
    (mkdirM 0 [] (NewEmptyTree 0 ("root")) [("a"), ("b")]).map
        (fun p => p.2.1.userland.map Link.name) = some [("b"), ("a")] ∧
      (mkdirM 0 [] (NewEmptyTree 0 ("root")) [("a"), ("b")]).map
        (fun p => p.2.1.userland.map Link.name) ≠ some [("a")] := by
  exact ⟨by decide, by decide⟩

/-- The link/skeleton consistency invariant (spec section 8): every name
in the userland link set appears in the skeleton with the same target cid
and the same `is_file` flag. -/
def linkSkelConsistent (ul : List Link)
    (sk : List (String × SkeletonInfo)) : Prop :=
  ∀ l ∈ ul, ∃ si, skelGet sk l.name = some si ∧
    si.cid = l.cid ∧ si.isFile = l.isFile

theorem find?_filter_comm {α : Type} (p q : α → Bool)
    (h : ∀ x, p x = true → q x = true) (l : List α) :
    (l.filter q).find? p = l.find? p := by
  induction l with
  | nil => rfl
  | cons e es ih =>
    cases hq : q e with
    | false =>
      have hp : p e = false := by
        cases hpe : p e
        · rfl
        · rw [h e hpe] at hq; cases hq
      simp [List.filter_cons, hq, List.find?_cons, hp, ih]
    | true =>
      cases hp : p e
      · simp [List.filter_cons, hq, List.find?_cons, hp, ih]
      · simp [List.filter_cons, hq, List.find?_cons, hp]

theorem skelGet_insert_self (sk : List (String × SkeletonInfo)) (n : String)
    (si : SkeletonInfo) : skelGet (skelInsert sk n si) n = some si := by
  rw [skelGet, skelInsert, List.find?_append]
  have hnone : (sk.filter (fun e => !(e.1 == n))).find? (fun e => e.1 == n)
      = none := by
    apply List.find?_eq_none.mpr
    intro x hx
    have := List.of_mem_filter hx
    simpa using this
  rw [hnone]
  simp

theorem skelGet_insert_ne (sk : List (String × SkeletonInfo)) (n m : String)
    (si : SkeletonInfo) (h : m ≠ n) :
    skelGet (skelInsert sk n si) m = skelGet sk m := by
  rw [skelGet, skelInsert, List.find?_append]
  rw [find?_filter_comm (fun e => e.1 == m) (fun e => !(e.1 == n))
    (by intro x hx; simp at hx ⊢; rw [hx]; exact h) sk]
  have hsingle : ([(n, si)].find? (fun e => e.1 == m)) = none := by
    rw [List.find?_eq_none]
    intro x hx
    obtain rfl : x = (n, si) := by simpa using hx
    simp
    exact fun hc => h hc.symm
  cases hf : sk.find? (fun e => e.1 == m) with
  | some e => simp [skelGet, hf]
  | none => simp [skelGet, hf, hsingle]

theorem skelGet_remove_ne (sk : List (String × SkeletonInfo)) (n m : String)
    (h : m ≠ n) : skelGet (skelRemove sk n) m = skelGet sk m := by
  rw [skelGet, skelRemove]
  rw [find?_filter_comm (fun e => e.1 == m) (fun e => !(e.1 == n))
    (by intro x hx; simp at hx ⊢; rw [hx]; exact h) sk]
  rfl

theorem mem_linksAdd {ls : List Link} {l x : Link} (h : x ∈ linksAdd ls l) :
    (x ∈ ls ∧ x.name ≠ l.name) ∨ x = l := by
  rw [linksAdd] at h
  rcases List.mem_append.mp h with hm | hm
  · left
    refine ⟨List.mem_of_mem_filter hm, ?_⟩
    have := List.of_mem_filter hm
    simpa using this
  · right
    simpa using hm

theorem mem_linksRemove {ls : List Link} {n : String} {x : Link}
    (h : x ∈ linksRemove ls n) : x ∈ ls ∧ x.name ≠ n := by
  rw [linksRemove] at h
  refine ⟨List.mem_of_mem_filter h, ?_⟩
  have := List.of_mem_filter h
  simpa using this

/-- Installing a link and its matching skeleton entry preserves the
invariant. -/
theorem consistent_insert {ul : List Link}
    {sk : List (String × SkeletonInfo)} {lk : Link} {si : SkeletonInfo}
    (h : linkSkelConsistent ul sk) (hcid : si.cid = lk.cid)
    (hif : si.isFile = lk.isFile) :
    linkSkelConsistent (linksAdd ul lk) (skelInsert sk lk.name si) := by
  intro x hx
  rcases mem_linksAdd hx with ⟨hmem, hne⟩ | rfl
  · obtain ⟨si0, hget, hc, hf⟩ := h x hmem
    exact ⟨si0, by rw [skelGet_insert_ne sk lk.name x.name si hne]; exact hget,
      hc, hf⟩
  · exact ⟨si, skelGet_insert_self sk x.name si, hcid, hif⟩

/-- Removing a name from both indices preserves the invariant. -/
theorem consistent_remove {ul : List Link}
    {sk : List (String × SkeletonInfo)} {n : String}
    (h : linkSkelConsistent ul sk) :
    linkSkelConsistent (linksRemove ul n) (skelRemove sk n) := by
  intro x hx
  obtain ⟨hmem, hne⟩ := mem_linksRemove hx
  obtain ⟨si0, hget, hc, hf⟩ := h x hmem
  exact ⟨si0, by rw [skelGet_remove_ne sk n x.name hne]; exact hget, hc, hf⟩

theorem loadFileM_cid {st : Store} {n : String} {c : Cid} {fm : FileM}
    (h : loadFileM st n c = some fm) : fm.cid = c := by
  rw [loadFileM] at h
  cases hh : loadHeaderM st c with
  | none => rw [hh] at h; cases h
  | some hd =>
    simp only [hh, fileFromHeaderM] at h
    cases hmd : (match hd.metadata with
      | none => some none
      | some mc =>
        match getBlk st mc with
        | some (Blk.ldBlock v) => some (some v)
        | _ => none : Option (Option Nat)) with
    | none => rw [hmd] at h; cases h
    | some mdv =>
      rw [hmd] at h
      cases hul : hd.userland with
      | none => simp only [hul] at h; cases h
      | some ulc =>
        simp only [hul] at h
        rw [← Option.some.inj h]

theorem loadNodeFromSkeletonInfoM_spec {st : Store} {n : String}
    {si : SkeletonInfo} {nd : NodeM}
    (h : loadNodeFromSkeletonInfoM st n si = some nd) :
    nodeCid nd = si.cid ∧ nodeIsFile nd = si.isFile := by
  rw [loadNodeFromSkeletonInfoM] at h
  by_cases hf : si.isFile
  · rw [if_pos hf] at h
    obtain ⟨fm, hfm, rfl⟩ := Option.map_eq_some.mp h
    exact ⟨loadFileM_cid hfm, by rw [hf]; rfl⟩
  · rw [if_neg hf] at h
    obtain ⟨tm, htm, rfl⟩ := Option.map_eq_some.mp h
    refine ⟨(loadTreeM_spec htm).1, ?_⟩
    show false = si.isFile
    rw [Bool.eq_false_iff.mpr hf]

/-- The per-name actions of the recursive directory merge preserve the
invariant. -/
theorem mergeChildren_consistent
    (rec : Store → NodeM → NodeM → Option (Store × MergeResult)) :
    ∀ (entries : List (String × SkeletonInfo)) (st : Store)
      (askel : List (String × SkeletonInfo)) (aul : List Link)
      (st1 : Store) (skel1 : List (String × SkeletonInfo)) (ul1 : List Link),
      linkSkelConsistent aul askel →
      mergeChildren rec st entries askel aul = some (st1, skel1, ul1) →
      linkSkelConsistent ul1 skel1 := by
  intro entries
  induction entries with
  | nil =>
    intro st askel aul st1 skel1 ul1 hcons h
    have h2 : askel = skel1 :=
      Option.some.inj (congrArg (fun q => q.map (fun p => p.2.1)) h)
    have h3 : aul = ul1 :=
      Option.some.inj (congrArg (fun q => q.map (fun p => p.2.2)) h)
    rw [← h2, ← h3]
    exact hcons
  | cons e rest ih =>
    obtain ⟨n, ri⟩ := e
    intro st askel aul st1 skel1 ul1 hcons h
    rw [mergeChildren] at h
    cases hsg : skelGet askel n with
    | none =>
      simp only [hsg] at h
      cases hload : loadNodeFromSkeletonInfoM st n ri with
      | none => simp only [hload] at h; cases h
      | some nd =>
        simp only [hload] at h
        obtain ⟨hc, hf⟩ := loadNodeFromSkeletonInfoM_spec hload
        refine ih st (skelInsert askel n ri)
          (linksAdd aul ⟨n, nodeCid nd, nodeIsFile nd⟩) st1 skel1 ul1 ?_ h
        exact consistent_insert hcons hc.symm hf.symm
    | some li =>
      simp only [hsg] at h
      by_cases heq : li.cid = ri.cid
      · rw [if_pos heq] at h
        exact ih st askel aul st1 skel1 ul1 hcons h
      · rw [if_neg heq] at h
        cases hl1 : loadNodeFromSkeletonInfoM st n li with
        | none => simp only [hl1] at h; cases h
        | some lcl =>
          simp only [hl1] at h
          cases hl2 : loadNodeFromSkeletonInfoM st n ri with
          | none => simp only [hl2] at h; cases h
          | some rem =>
            simp only [hl2] at h
            cases hrec : rec st lcl rem with
            | none => simp only [hrec] at h; cases h
            | some pr =>
              obtain ⟨st2, res⟩ := pr
              simp only [hrec] at h
              refine ih st2 (skelInsert askel n (mergeResultToSkeletonInfo res))
                (linksAdd aul (mergeResultToLink res n)) st1 skel1 ul1 ?_ h
              exact consistent_insert hcons rfl rfl

/-- The recursive directory merge returns a tree satisfying the
invariant. -/
theorem mergeTreesF_consistent
    (rec : Store → NodeM → NodeM → Option (Store × MergeResult))
    (now : Int) (st : Store) (a b : TreeM) (st1 : Store) (t1 : TreeM)
    (hcons : linkSkelConsistent a.userland a.skeleton)
    (h : mergeTreesF rec now st a b = some (st1, t1)) :
    linkSkelConsistent t1.userland t1.skeleton := by
  rw [mergeTreesF] at h
  cases hmc : mergeChildren rec st (sortSkel b.skeleton) a.skeleton a.userland
    with
  | none => rw [hmc] at h; cases h
  | some tr =>
    obtain ⟨st2, skel2, ul2⟩ := tr
    simp only [hmc] at h
    have hcons2 := mergeChildren_consistent rec (sortSkel b.skeleton) st
      a.skeleton a.userland st2 skel2 ul2 hcons hmc
    have hu : ul2 = t1.userland :=
      Option.some.inj (congrArg (fun q => q.map (fun p => p.2.userland)) h)
    have hs : skel2 = t1.skeleton :=
      Option.some.inj (congrArg (fun q => q.map (fun p => p.2.skeleton)) h)
    rw [← hu, ← hs]
    exact hcons2

/-- `Rm` returns a tree satisfying the invariant. -/
theorem rmM_consistent (now : Int) (st : Store) :
    ∀ (path : List String) (t : TreeM) (st1 : Store) (t1 : TreeM)
      (r : PutResult), linkSkelConsistent t.userland t.skeleton →
      rmM now st t path = .ok (st1, t1, r) →
      linkSkelConsistent t1.userland t1.skeleton := by
  intro path
  induction path with
  | nil => intro t st1 t1 r hcons h; cases h
  | cons head tail ih =>
    intro t st1 t1 r hcons h
    simp only [rmM] at h
    by_cases hhe : head = ""
    · rw [if_pos hhe] at h; cases h
    · rw [if_neg hhe] at h
      cases tail with
      | nil =>
        have hu : (removeUserlandLink now t head).userland = t1.userland :=
          Except.ok.inj
            (congrArg (fun q => q.map (fun p => p.2.1.userland)) h)
        have hs : (removeUserlandLink now t head).skeleton = t1.skeleton :=
          Except.ok.inj
            (congrArg (fun q => q.map (fun p => p.2.1.skeleton)) h)
        rw [← hu, ← hs]
        exact consistent_remove hcons
      | cons y ys =>
        cases hlg : linksGet t.userland head with
        | none => simp only [hlg] at h; cases h
        | some link =>
          simp only [hlg] at h
          cases hld : loadTreeM st head link.cid with
          | none => simp only [hld] at h; cases h
          | some child =>
            simp only [hld] at h
            cases hrec : rmM now st child (y :: ys) with
            | error e => simp only [hrec] at h; cases h
            | ok pr =>
              obtain ⟨st2, c1, res⟩ := pr
              simp only [hrec] at h
              have hu : (updateUserlandLink now t head res).userland
                  = t1.userland :=
                Except.ok.inj
                  (congrArg (fun q => q.map (fun p => p.2.1.userland)) h)
              have hs : (updateUserlandLink now t head res).skeleton
                  = t1.skeleton :=
                Except.ok.inj
                  (congrArg (fun q => q.map (fun p => p.2.1.skeleton)) h)
              rw [← hu, ← hs]
              exact consistent_insert hcons rfl rfl

/-- `Mkdir` returns a tree satisfying the invariant. -/
theorem mkdirM_consistent (now : Int) (st : Store) :
    ∀ (path : List String) (t : TreeM) (st1 : Store) (t1 : TreeM)
      (r : PutResult), linkSkelConsistent t.userland t.skeleton →
      mkdirM now st t path = some (st1, t1, r) →
      linkSkelConsistent t1.userland t1.skeleton := by
  intro path
  induction path with
  | nil => intro t st1 t1 r hcons h; cases h
  | cons head tail ih =>
    intro t st1 t1 r hcons h
    simp only [mkdirM] at h
    cases hgc : getOrCreateDirectChildTree now st t head with
    | none => rw [hgc] at h; cases h
    | some childDir =>
      rw [hgc] at h
      cases tail with
      | nil =>
        have hu : (updateUserlandLink now t head
            (treePut st childDir).2.2).userland = t1.userland :=
          Option.some.inj
            (congrArg (fun q => q.map (fun p => p.2.1.userland)) h)
        have hs : (updateUserlandLink now t head
            (treePut st childDir).2.2).skeleton = t1.skeleton :=
          Option.some.inj
            (congrArg (fun q => q.map (fun p => p.2.1.skeleton)) h)
        rw [← hu, ← hs]
        exact consistent_insert hcons rfl rfl
      | cons y ys =>
        cases hrec : mkdirM now st t (y :: ys) with
        | none => rw [hrec] at h; cases h
        | some pr =>
          obtain ⟨st2, t2, res⟩ := pr
          rw [hrec] at h
          have hcons2 := ih t st2 t2 res hcons hrec
          have hu : (updateUserlandLink now t2 head res).userland
              = t1.userland :=
            Option.some.inj
              (congrArg (fun q => q.map (fun p => p.2.1.userland)) h)
          have hs : (updateUserlandLink now t2 head res).skeleton
              = t1.skeleton :=
            Option.some.inj
              (congrArg (fun q => q.map (fun p => p.2.1.skeleton)) h)
          rw [← hu, ← hs]
          exact consistent_insert hcons2 rfl rfl

/-- C9: link/skeleton consistency is preserved by every tree operation.
The two primitive mutators (`updateUserlandLink`, used by Add, Mkdir and
Copy, and `removeUserlandLink`, used by Rm) keep the two indices in step
— the spec-modelled `ToLink`/`ToSkeletonInfo` conversions agree on target
cid and `is_file` — and so do the per-name actions of the recursive
directory merge; consequently Rm, Mkdir and mergeTrees return consistent
trees (children are loaded from a store whose trees are consistent). -/
theorem link_skeleton_consistency_preserved :
    (∀ (now : Int) (t : TreeM) (name : String) (res : PutResult),
      linkSkelConsistent t.userland t.skeleton →
      linkSkelConsistent (updateUserlandLink now t name res).userland
        (updateUserlandLink now t name res).skeleton) ∧
    (∀ (now : Int) (t : TreeM) (name : String),
      linkSkelConsistent t.userland t.skeleton →
      linkSkelConsistent (removeUserlandLink now t name).userland
        (removeUserlandLink now t name).skeleton) ∧
    (∀ (rec : Store → NodeM → NodeM → Option (Store × MergeResult))
      (now : Int) (st : Store) (a b : TreeM) (st1 : Store) (t1 : TreeM),
      linkSkelConsistent a.userland a.skeleton →
      mergeTreesF rec now st a b = some (st1, t1) →
      linkSkelConsistent t1.userland t1.skeleton) ∧
    (∀ (now : Int) (st : Store) (path : List String) (t : TreeM)
      (st1 : Store) (t1 : TreeM) (r : PutResult),
      linkSkelConsistent t.userland t.skeleton →
      rmM now st t path = .ok (st1, t1, r) →
      linkSkelConsistent t1.userland t1.skeleton) ∧
    (∀ (now : Int) (st : Store) (path : List String) (t : TreeM)
      (st1 : Store) (t1 : TreeM) (r : PutResult),
      linkSkelConsistent t.userland t.skeleton →
      mkdirM now st t path = some (st1, t1, r) →
      linkSkelConsistent t1.userland t1.skeleton) := by
  refine ⟨?_, ?_, ?_, ?_, ?_⟩
  · intro now t name res hcons
    exact consistent_insert hcons rfl rfl
  · intro now t name hcons
    exact consistent_remove hcons
  · intro rec now st a b st1 t1 hcons h
    exact mergeTreesF_consistent rec now st a b st1 t1 hcons h
  · intro now st path t st1 t1 r hcons h
    exact rmM_consistent now st path t st1 t1 r hcons h
  · intro now st path t st1 t1 r hcons h
    exact mkdirM_consistent now st path t st1 t1 r hcons h

/-- Header of a single-revision file used by the merge witnesses. -/
def wHa : Header :=
  { info := some (NewInfo 0 NTFile), previous := none, merge := none,
    metadata := none, skeleton := none, userland := some 1 }

/-- Header of a second, unrelated single-revision file. -/
def wHb : Header :=
  { info := some (NewInfo 0 NTFile), previous := none, merge := none,
    metadata := none, skeleton := none, userland := some 2 }

/-- The cid of `wHa`'s header block. -/
def wCa : Cid := blockId (Blk.header wHa)

/-- The cid of `wHb`'s header block. -/
def wCb : Cid := blockId (Blk.header wHb)

/-- In-memory node over `wHa`. -/
def wNa : NodeM :=
  .file { name := ("a"), cid := wCa, h := wHa, metadata := none,
          content := none }

/-- In-memory node over `wHb`. -/
def wNb : NodeM :=
  .file { name := ("b"), cid := wCb, h := wHb, metadata := none,
          content := none }

/-- A store holding both witness headers. -/
def wStAB : Store := [Blk.header wHa, Blk.header wHb]

/-- Witness for C1 at a concrete store: two unrelated single-revision
nodes merge to the same cid in either order. -/
theorem merge_cid_commutative_witness :
    (mergeFuel 0 1 wStAB wNa wNb).map (fun p => p.2.cid) =
      (mergeFuel 0 1 wStAB wNb wNa).map (fun p => p.2.cid) :=
  merge_cid_commutative 0 0 wStAB wNa wNb [wCa] [wCb] rfl rfl
    ⟨.file { name := (""), cid := wCa, h := wHa, metadata := none,
             content := none }, by decide, rfl⟩
    ⟨.file { name := (""), cid := wCb, h := wHb, metadata := none,
             content := none }, by decide, rfl⟩
    (by simp)

/-- A second revision whose `previous` points at `wHa`. -/
def wHc : Header :=
  { info := some (NewInfo 0 NTFile), previous := some wCa, merge := none,
    metadata := none, skeleton := none, userland := some 1 }

/-- The cid of `wHc`'s header block. -/
def wCc : Cid := blockId (Blk.header wHc)

/-- In-memory node over `wHc`: a descendant of `wNa`. -/
def wNc : NodeM :=
  .file { name := ("c"), cid := wCc, h := wHc, metadata := none,
          content := none }

/-- A store holding the ancestor and its descendant. -/
def wStAC : Store := [Blk.header wHa, Blk.header wHc]

/-- Witness for C5 at a concrete store: merging an ancestor with its
descendant classifies as FastForward returning the descendant's head. -/
theorem merge_fastforward_recognition_witness :
    mergeFuel 0 1 wStAC wNa wNc =
      some (wStAC, { type := .fastForward, cid := wCc, userland := 0,
                     metadata := none, size := 0, isFile := true }) :=
  merge_fastforward_recognition 0 0 wStAC wNa wNc [wCa] [wCc, wCa]
    rfl (by decide) (by decide) (by decide)

/-- Witness for C2 amended at a concrete empty tree. -/
theorem rm_notfound_only_interior_witness :
    (rmM 0 [] (NewEmptyTree 0 ("root")) [("y")] =
        .ok (treePut []
          (removeUserlandLink 0 (NewEmptyTree 0 ("root")) ("y"))) ∧
      (removeUserlandLink 0 (NewEmptyTree 0 ("root")) ("y")).userland =
        (NewEmptyTree 0 ("root")).userland) ∧
    rmM 0 [] (NewEmptyTree 0 ("root")) [("y"), ("z")] =
      .error ErrM.notFound :=
  ⟨rm_notfound_only_interior.1 0 [] (NewEmptyTree 0 ("root")) ("y")
      (by decide) rfl,
    rm_notfound_only_interior.2 0 [] (NewEmptyTree 0 ("root")) ("y")
      [("z")] (by simp) (by decide) rfl⟩

/-- The store after the first put of the C4 witness tree. -/
def wSt4 : Store := (treePut [] wTreeC4).1

/-- The cid returned by the first put of the C4 witness tree. -/
def wC4 : Cid := (treePut [] wTreeC4).2.2.cid

/-- The C4 witness tree reloaded from its cid. -/
def wT4loaded : TreeM :=
  (loadTreeM wSt4 ("r") wC4).getD (NewEmptyTree 0 (""))

/-- Witness for C4 amended at a concrete tree: re-putting the reloaded
tree rotates `previous` onto the original cid and yields a new cid. -/
theorem put_reload_put_rotates_previous_witness :
    (treePut wSt4 wT4loaded).2.1.h.previous = some wC4 ∧
      (treePut wSt4 wT4loaded).2.2.cid ≠ wC4 :=
  put_reload_put_rotates_previous wSt4 ("r") wC4 wT4loaded (by decide)
    (by decide)

/-- The result of putting the C6 witness file. -/
def wF6res : Store × FileM × PutResult :=
  (filePut [] wFileC6).getD
    ([], wFileC6,
      { cid := 0, size := 0, userland := 0, skeleton := [], type := 0 })

/-- Witness for C6 amended at a concrete file. -/
theorem put_preserves_info_size_witness :
    (wF6res.2.1.h.info.map Info.size) = (wFileC6.h.info.map Info.size) ∧
      wF6res.2.2.size = ((wFileC6.h.info.map Info.size).getD 0) :=
  put_preserves_info_size.1 [] wFileC6 wF6res.1 wF6res.2.1 wF6res.2.2
    (by decide)

/-- The bounded history log of the C7 witness chain. -/
def wH7a : List HistoryEntry := (historyM stH entH0 2 9).getD []

/-- The unbounded history log of the C7 witness chain. -/
def wH7b : List HistoryEntry := (historyM stH entH0 (-1) 9).getD []

/-- Witness for C7 amended at the concrete three-revision chain. -/
theorem history_max_amended_witness :
    ((wH7a.length : Int) ≤ 2) ∧
      (wH7b[0]? = some entH0 ∧ linkedEntries wH7b ∧
        (∀ e, wH7b.getLast? = some e → e.previous = none)) :=
  ⟨history_max_amended.1 stH entH0 2 9 wH7a (by decide) (by decide),
    history_max_amended.2 stH entH0 (-1) 9 wH7b (by decide) (by decide)⟩

/-- A concrete put result for the C9 witness. -/
def wRes9 : PutResult :=
  { cid := 3, size := 0, userland := 1, skeleton := [], type := 0 }

/-- Witness for C9 at a concrete empty tree and put result. -/
theorem link_skeleton_consistency_witness :
    linkSkelConsistent
      (updateUserlandLink 0 (NewEmptyTree 0 ("d")) ("x") wRes9).userland
      (updateUserlandLink 0 (NewEmptyTree 0 ("d")) ("x") wRes9).skeleton :=
  link_skeleton_consistency_preserved.1 0 (NewEmptyTree 0 ("d")) ("x") wRes9
    (by intro l hl; exact absurd hl (List.not_mem_nil l))

end Wnfs
